import Mathlib

/-!
Verification of the rustbuild step engine (src/bootstrap/step.rs): rule
registry, planner, dependency-graph expansion, soft after-edges,
topological sort, and runner. The definitions below are a shallow
embedding of the Rust source; stateful code is modelled by explicit
state passing, panics by Option, and the unbounded DFS recursion of
build_graph and topo_sort by an explicit fuel argument (the Rust
recursion depth). Rust HashSet-valued edge sets are modelled as lists
read up to membership.
-/

/-- Mirror of struct Step: the immutable parameter tuple of one node of
the dependency graph. -/
structure Step where
  name : String
  stage : Nat
  host : String
  target : String
deriving DecidableEq, Repr

/-- Mirror of Step::noop, the sentinel no-op step. -/
def Step.noop : Step :=
  { name := "", stage := 0, host := "", target := "" }

/-- Mirror of the builder method Step::name (returns a copy with a new name). -/
def Step.setName (s : Step) (name : String) : Step :=
  { s with name := name }

/-- Mirror of the builder method Step::stage. -/
def Step.setStage (s : Step) (stage : Nat) : Step :=
  { s with stage := stage }

/-- Mirror of the builder method Step::host. -/
def Step.setHost (s : Step) (host : String) : Step :=
  { s with host := host }

/-- Mirror of the builder method Step::target. -/
def Step.setTarget (s : Step) (target : String) : Step :=
  { s with target := target }

/-- Mirror of enum Kind. -/
inductive Kind where
  | Build
  | Test
  | Bench
  | Dist
  | Doc
  | Install
deriving DecidableEq, Repr

/-- Mirror of struct Rule: a registered catalog entry. The run action is
omitted (opaque side effect); deps are the dependency functions. -/
structure Rule where
  name : String
  path : String
  kind : Kind
  deps : List (Step → Step)
  default : Bool
  host : Bool
  only_host_build : Bool
  only_build : Bool
  after : List String

/-- Mirror of enum Subcommand (flags.rs), restricted to the payloads the
planner reads. -/
inductive Subcommand where
  | Build (paths : List String)
  | Doc (paths : List String)
  | Test (paths : List String)
  | Bench (paths : List String)
  | Dist (paths : List String)
  | Install (paths : List String)
  | Clean

/-- Mirror of the flag fields of struct Flags read by the step engine. -/
structure Flags where
  host : List String
  target : List String
  stage : Option Nat
  keep_stage : Option Nat
  cmd : Subcommand

/-- Mirror of the config fields of struct Config read by the step engine. -/
structure Config where
  build : String
  host : List String
  target : List String

/-- Mirror of the fields of struct Build read by the step engine. -/
structure Build where
  flags : Flags
  config : Config

/-- Mirror of struct Rules. The BTreeMap keyed by rule name is modelled
as the list of its values in iteration order; lookups go through
Rules.findRule. -/
structure Rules where
  build : Build
  rules : List Rule

/-- The sbuild sentinel computed in Rules::new: default stage (flag or 2)
and the build triple as both host and target. -/
def Rules.sbuild (R : Rules) : Step :=
  { stage := R.build.flags.stage.getD 2
    target := R.build.config.build
    host := R.build.config.build
    name := "" }

/-- Lookup in the rule map (BTreeMap::get keyed by name). -/
def Rules.findRule (R : Rules) (name : String) : Option Rule :=
  R.rules.find? (fun r => r.name == name)

/-- Rust str::starts_with, modelled on the character lists of the
strings (kernel-computable, unlike String.startsWith). -/
def strStartsWith (s pat : String) : Bool :=
  pat.data.isPrefixOf s.data

/-- Rust str::ends_with, modelled on the character lists of the
strings. -/
def strEndsWith (s pat : String) : Bool :=
  pat.data.isSuffixOf s.data

/-- Rust byte-slice str indexing s[n..], modelled on the character list
of the string (the names sliced in the source are ASCII). -/
def strDrop (s : String) (n : Nat) : String :=
  String.mk (s.data.drop n)

/-- Rust str::contains with a string pattern, modelled on the character
lists. -/
def strContains (s pat : String) : Bool :=
  (List.range (s.data.length + 1)).any (fun i => pat.data.isPrefixOf (s.data.drop i))

/-- Mirror of Rules::verify. Returns none when every dependency of every
rule resolves (registered name, a default: reference, or the noop
sentinel), and some (rule.name, dep.name) for the offending pair on
which the Rust code panics. -/
def Rules.verify (R : Rules) : Option (String × String) :=
  R.rules.findSome? (fun rule =>
    rule.deps.findSome? (fun dep =>
      let d := dep (R.sbuild.setName rule.name)
      if R.rules.any (fun r => r.name == d.name) || strStartsWith d.name ("default:") then
        none
      else if d == Step.noop then
        none
      else
        some (rule.name, d.name)))


/-- The command-string to Kind mapping at the top of Rules::get_help. -/
def commandKind (command : String) : Option Kind :=
  match command with
  | "build" => some Kind.Build
  | "doc" => some Kind.Doc
  | "test" => some Kind.Test
  | "bench" => some Kind.Bench
  | "dist" => some Kind.Dist
  | "install" => some Kind.Install
  | _ => none

/-- Mirror of Rules::get_help: list the rules of the kind of the command
whose path does not contain "nowhere", sorted by path, formatted below
the Available paths header. -/
def Rules.get_help (R : Rules) (command : String) : Option String :=
  match commandKind command with
  | none => none
  | some kind =>
    let rs := (R.rules.filter (fun r => r.kind == kind)).filter
      (fun r => !(strContains r.path ("nowhere")))
    let sorted := rs.mergeSort (fun a b => a.path ≤ b.path)
    some (sorted.foldl
      (fun acc r => acc ++ "    ./x.py " ++ command ++ " " ++ r.path ++ "\n")
      ("Available paths:\n"))

/-- The kind and path filters extracted from the subcommand at the top of
Rules::plan (the Clean arm panics, modelled as none). -/
def commandOf : Subcommand → Option (Kind × List String)
  | Subcommand.Build paths => some (Kind.Build, paths)
  | Subcommand.Doc paths => some (Kind.Doc, paths)
  | Subcommand.Test paths => some (Kind.Test, paths)
  | Subcommand.Bench paths => some (Kind.Bench, paths)
  | Subcommand.Dist paths => some (Kind.Dist, paths)
  | Subcommand.Install paths => some (Kind.Install, paths)
  | Subcommand.Clean => none

/-- The rule-selection phase of Rules::plan: filter to the requested
kind, pick default rules (priority 0) when no path filters were given,
otherwise pick rules whose path is a suffix of some filter with the
index of the first matching filter as priority, then stably sort by
priority (Rust sort_by_key is stable; modelled by mergeSort). -/
def Rules.selectRules (R : Rules) (kind : Kind) (paths : List String) : List (Rule × Nat) :=
  (R.rules.filterMap (fun rule =>
    if rule.kind != kind then
      none
    else if paths.length == 0 && rule.default then
      some (rule, 0)
    else
      (paths.findIdx? (fun path => strEndsWith path rule.path)).map
        (fun priority => (rule, priority)))).mergeSort
    (fun a b => a.2 ≤ b.2)

/-- The hosts axis computed per selected rule in Rules::plan. The Rust
slice config.host[..1] panics when the configured host list is empty;
here it is List.take 1 (the difference only matters on states on which
the Rust program aborts before emitting any step). -/
def Rules.planHosts (R : Rules) (rule : Rule) : List String :=
  if rule.only_host_build || rule.only_build then
    R.build.config.host.take 1
  else if R.build.flags.host.length > 0 then
    R.build.flags.host
  else
    R.build.config.host

/-- The targets list computed in Rules::plan. -/
def Rules.planTargets (R : Rules) : List String :=
  if R.build.flags.target.length > 0 then
    R.build.flags.target
  else
    R.build.config.target

/-- The target axis (the arr variable) computed per selected rule in
Rules::plan: host rules replace the target axis by a host-derived
list. -/
def Rules.planArr (R : Rules) (rule : Rule) : List String :=
  if rule.host then
    if R.build.flags.host.length > 0 then
      R.build.flags.host
    else if R.build.flags.target.length > 0 then
      []
    else if rule.only_build then
      R.build.config.host.take 1
    else
      R.build.config.host
  else
    R.planTargets

/-- The cartesian product of hosts and the target axis for one selected
rule in Rules::plan, materializing steps from sbuild. -/
def Rules.planRule (R : Rules) (rule : Rule) : List Step :=
  (R.planHosts rule).flatMap (fun host =>
    (R.planArr rule).map (fun target =>
      ((R.sbuild.setName rule.name).setTarget target).setHost host))

/-- Mirror of Rules::plan: the top-level step list (none on Clean, where
the Rust code panics). -/
def Rules.plan (R : Rules) : Option (List Step) :=
  (commandOf R.build.flags.cmd).map (fun kp =>
    (R.selectRules kp.1 kp.2).flatMap (fun rp => R.planRule rp.1))

/-- The dependency graph being built by Rules::expand: nodes in insertion
order (the index of a step is its position; node 0 is the noop), and the
edge map from node index to the list of its prerequisite indices (a Rust
HashSet, read up to membership). -/
structure Graph where
  nodes : List Step
  edges : Nat → List Nat

/-- The kind-string parse inside the default: arm of Rules::build_graph;
only doc and dist are accepted, every other kind string panics
(modelled as none). -/
def parseDefaultKind (s : String) : Option Kind :=
  match s with
  | "doc" => some Kind.Doc
  | "dist" => some Kind.Dist
  | _ => none

/-- The default fan-out enumeration of Rules::build_graph: every
registered rule with default true of the given kind, where rules with
host true are kept only when d.target is one of the configured host
tags; each contributes the step d.name(rule.name). -/
def Rules.fanOut (R : Rules) (d : Step) (kind : Kind) : List Step :=
  let host := R.build.config.host.any (fun h => h == d.target)
  ((R.rules.filter (fun r => r.default)).filter
    (fun r => r.kind == kind && (!r.host || host))).map
    (fun r => d.setName r.name)

/-- The list of steps one dependency function contributes in
Rules::build_graph: the fan-out list for a default: reference (none for
an unknown kind, where Rust panics), the single returned step
otherwise. -/
def Rules.depTargets (R : Rules) (step : Step) (f : Step → Step) : Option (List Step) :=
  let d := f step
  if strStartsWith d.name ("default:") then
    (parseDefaultKind (strDrop d.name 8)).map (fun kind => R.fanOut d kind)
  else
    some [d]

/-- All steps the dependency functions of a rule contribute for a node,
in source order (the dep loop of Rules::build_graph flattened). -/
def Rules.depSteps (R : Rules) (step : Step) (rule : Rule) : Option (List Step) :=
  rule.deps.foldrM (fun f acc => (R.depTargets step f).map (fun l => l ++ acc)) []

/-- Mirror of Rules::build_graph, with fuel bounding the Rust recursion
depth (the Rust function can recurse unboundedly on a mis-authored
catalog): memoized insertion of the step and recursive insertion of all
its dependency steps in order, then extension of the edge entry of the
new node with the collected dependency indices. none models a panic
(unknown rule name, unknown default: kind) or fuel exhaustion. -/
def Rules.buildGraph (R : Rules) : Nat → Step → Graph → Option (Nat × Graph)
  | 0, _, _ => none
  | fuel + 1, step, g =>
    match g.nodes.findIdx? (fun s => s == step) with
    | some i => some (i, g)
    | none =>
      match R.findRule step.name with
      | none => none
      | some rule =>
        match R.depSteps step rule with
        | none => none
        | some ds =>
          (ds.foldlM (fun (p : List Nat × Graph) s =>
              (R.buildGraph fuel s p.2).map (fun q => (p.1 ++ [q.1], q.2)))
            (([] : List Nat), ({ nodes := g.nodes ++ [step], edges := g.edges } : Graph))).map
            (fun p => (g.nodes.length,
              ({ nodes := p.2.nodes,
                 edges := fun j => if j = g.nodes.length then p.2.edges j ++ p.1
                   else p.2.edges j } : Graph)))

/-- The dep loop of Rules::build_graph: recurse on each dependency step
in order, collecting the returned node indices. -/
def Rules.buildList (R : Rules) (fuel : Nat) (ds : List Step) (g : Graph) (acc : List Nat) :
    Option (List Nat × Graph) :=
  ds.foldlM (fun (p : List Nat × Graph) s =>
    (R.buildGraph fuel s p.2).map (fun q => (p.1 ++ [q.1], q.2))) (acc, g)

theorem buildGraph_zero (R : Rules) (step : Step) (g : Graph) :
    R.buildGraph 0 step g = none := rfl

theorem buildGraph_succ (R : Rules) (fuel : Nat) (step : Step) (g : Graph) :
    R.buildGraph (fuel + 1) step g =
      match g.nodes.findIdx? (fun s => s == step) with
      | some i => some (i, g)
      | none =>
        match R.findRule step.name with
        | none => none
        | some rule =>
          match R.depSteps step rule with
          | none => none
          | some ds =>
            (R.buildList fuel ds { nodes := g.nodes ++ [step], edges := g.edges } []).map
              (fun p => (g.nodes.length,
                ({ nodes := p.2.nodes,
                   edges := fun j => if j = g.nodes.length then p.2.edges j ++ p.1
                     else p.2.edges j } : Graph))) := rfl

theorem buildList_nil (R : Rules) (fuel : Nat) (g : Graph) (acc : List Nat) :
    R.buildList fuel [] g acc = some (acc, g) := rfl

theorem buildList_cons (R : Rules) (fuel : Nat) (s : Step) (ss : List Step) (g : Graph)
    (acc : List Nat) :
    R.buildList fuel (s :: ss) g acc =
      match R.buildGraph fuel s g with
      | none => none
      | some p => R.buildList fuel ss p.2 (acc ++ [p.1]) := by
  rw [Rules.buildList, List.foldlM_cons]
  cases h : R.buildGraph fuel s g with
  | none => rfl
  | some p => rfl

/-- The graph-construction phase of Rules::expand: start from the graph
holding only the noop node with an empty edge entry and build from each
top-level step. -/
def Rules.expandGraph (R : Rules) (fuel : Nat) (steps : List Step) : Option Graph :=
  steps.foldlM (fun g s => (R.buildGraph fuel s g).map (fun p => p.2))
    ({ nodes := [Step.noop], edges := fun _ => [] } : Graph)

/-- The reverse index built in Rules::satisfy_after_deps: the node
indices at which a step of the given name appears. -/
def nameToIdx (nodes : List Step) (a : String) : List Nat :=
  (List.range nodes.length).filter (fun i => (nodes.getD i Step.noop).name == a)

/-- The extra prerequisite indices the after list of the rule of node i
contributes in Rules::satisfy_after_deps: for every after name, every
node index carrying that name (nothing when the name is absent from the
graph). none models the panic on an unregistered node name. -/
def Rules.afterExtra (R : Rules) (nodes : List Step) (i : Nat) : Option (List Nat) :=
  match nodes[i]? with
  | none => some []
  | some step =>
    if step = Step.noop then
      some []
    else
      match R.findRule step.name with
      | none => none
      | some rule => some (rule.after.flatMap (fun a => nameToIdx nodes a))

/-- Mirror of Rules::satisfy_after_deps: extend the edge entry of every
non-noop node with the indices its after names contribute. The Rust
code iterates a HashMap and extends HashSets, so the result is
determined up to membership; the node list itself is left untouched. -/
def Rules.satisfyAfterDeps (R : Rules) (nodes : List Step) (edges : Nat → List Nat) :
    Option (Nat → List Nat) :=
  if (List.range nodes.length).all (fun i => (R.afterExtra nodes i).isSome) then
    some (fun i => edges i ++ (R.afterExtra nodes i).getD [])
  else
    none

/-- Mirror of Rules::topo_sort, with fuel bounding the recursion depth:
return unchanged when the node is already visited, otherwise mark it
visited, recurse into its dependencies, and append it to the order.
The state is (visited, order). -/
def topoVisit (edges : Nat → List Nat) : Nat → Nat → List Nat × List Nat → List Nat × List Nat
  | 0, _, st => st
  | fuel + 1, cur, st =>
    if st.1.contains cur then
      st
    else
      let st1 := (edges cur).foldl (fun s d => topoVisit edges fuel d s) (cur :: st.1, st.2)
      (st1.1, st1.2 ++ [cur])

/-- The dependency loop of Rules::topo_sort. -/
def topoList (edges : Nat → List Nat) (fuel : Nat) (ds : List Nat)
    (st : List Nat × List Nat) : List Nat × List Nat :=
  ds.foldl (fun s d => topoVisit edges fuel d s) st

theorem topoVisit_zero (edges : Nat → List Nat) (cur : Nat) (st : List Nat × List Nat) :
    topoVisit edges 0 cur st = st := rfl

theorem topoVisit_succ (edges : Nat → List Nat) (fuel cur : Nat) (st : List Nat × List Nat) :
    topoVisit edges (fuel + 1) cur st =
      if st.1.contains cur then st
      else ((topoList edges fuel (edges cur) (cur :: st.1, st.2)).1,
            (topoList edges fuel (edges cur) (cur :: st.1, st.2)).2 ++ [cur]) := rfl

theorem topoList_nil (edges : Nat → List Nat) (fuel : Nat) (st : List Nat × List Nat) :
    topoList edges fuel [] st = st := rfl

theorem topoList_cons (edges : Nat → List Nat) (fuel d : Nat) (ds : List Nat)
    (st : List Nat × List Nat) :
    topoList edges fuel (d :: ds) st = topoList edges fuel ds (topoVisit edges fuel d st) := rfl

/-- The topological-sort driver in Rules::expand: node 0 pre-marked
visited, every index visited in increasing order. Fuel n + 1 always
exceeds the recursion depth (proved below), matching the fuel-free Rust
code. Returns the order as a list of node indices. -/
def topoDriver (n : Nat) (edges : Nat → List Nat) : List Nat :=
  ((List.range n).foldl (fun st idx => topoVisit edges (n + 1) idx st) ([0], [])).2

/-- Mirror of Rules::expand: build the graph from the top-level steps,
satisfy the after dependencies, topologically sort, and map node
indices back to steps. -/
def Rules.expand (R : Rules) (fuel : Nat) (steps : List Step) : Option (List Step) :=
  match R.expandGraph fuel steps with
  | none => none
  | some g =>
    match R.satisfyAfterDeps g.nodes g.edges with
    | none => none
    | some edges2 =>
      some ((topoDriver g.nodes.length edges2).map (fun i => g.nodes.getD i Step.noop))

/-- The keep-stage skip predicate of Rules::run. -/
def Rules.keepStep (R : Rules) (step : Step) : Bool :=
  match R.build.flags.keep_stage with
  | some s => decide (step.stage ≤ s)
  | none => false

/-- Mirror of the execution loop of Rules::run: the steps whose action is
actually invoked, in order (actions themselves are opaque side
effects). -/
def Rules.runExecuted (R : Rules) (order : List Step) : List Step :=
  order.filter (fun step => !(R.keepStep step))

/-! ## Claim C4: Rules::verify -/

/-- Dependency resolution predicate checked by Rules::verify for one rule
and one dependency function: the produced step is the noop sentinel, a
default: reference, or names a registered rule. -/
def depOk (R : Rules) (rule : Rule) (f : Step → Step) : Prop :=
  f (R.sbuild.setName rule.name) = Step.noop ∨
  strStartsWith (f (R.sbuild.setName rule.name)).name ("default:") = true ∨
  ∃ r ∈ R.rules, r.name = (f (R.sbuild.setName rule.name)).name

theorem verify_dep_check_none_iff (R : Rules) (rule : Rule) (f : Step → Step) :
    ((if R.rules.any (fun r => r.name == (f (R.sbuild.setName rule.name)).name)
          || strStartsWith (f (R.sbuild.setName rule.name)).name ("default:") then
        (none : Option (String × String))
      else if f (R.sbuild.setName rule.name) == Step.noop then
        none
      else
        some (rule.name, (f (R.sbuild.setName rule.name)).name)) = none) ↔ depOk R rule f := by
  constructor
  · intro h
    by_cases h1 : (R.rules.any (fun r => r.name == (f (R.sbuild.setName rule.name)).name)
        || strStartsWith (f (R.sbuild.setName rule.name)).name ("default:")) = true
    · rcases Bool.or_eq_true _ _ |>.mp h1 with h2 | h2
      · rcases List.any_eq_true.mp h2 with ⟨r, hr, hname⟩
        exact Or.inr (Or.inr ⟨r, hr, by simpa using hname⟩)
      · exact Or.inr (Or.inl h2)
    · rw [if_neg h1] at h
      by_cases h2 : (f (R.sbuild.setName rule.name) == Step.noop) = true
      · exact Or.inl (by simpa using h2)
      · rw [if_neg h2] at h
        exact absurd h (by simp)
  · intro h
    rcases h with h | h | ⟨r, hr, hname⟩
    · by_cases h1 : (R.rules.any (fun r => r.name == (f (R.sbuild.setName rule.name)).name)
          || strStartsWith (f (R.sbuild.setName rule.name)).name ("default:")) = true
      · rw [if_pos h1]
      · rw [if_neg h1, if_pos (by simpa using h)]
    · rw [if_pos (Bool.or_eq_true _ _ |>.mpr (Or.inr h))]
    · rw [if_pos (Bool.or_eq_true _ _ |>.mpr
        (Or.inl (List.any_eq_true.mpr ⟨r, hr, by simpa using hname⟩)))]

/-- Claim C4: Rules::verify returns normally (none) exactly when, for
every registered rule and every dependency function of that rule, the
step computed from the sbuild sentinel renamed to the rule is the noop
sentinel, a default: reference, or names a registered rule; and any
reported failure is the pair of the rule name and the offending
dependency name of a rule and dependency function violating that
condition. -/
theorem verify_none_iff (R : Rules) :
    (R.verify = none ↔ ∀ rule ∈ R.rules, ∀ f ∈ rule.deps, depOk R rule f) ∧
    (∀ rn dn, R.verify = some (rn, dn) →
      ∃ rule ∈ R.rules, rule.name = rn ∧ ∃ f ∈ rule.deps,
        (f (R.sbuild.setName rule.name)).name = dn ∧ ¬ depOk R rule f) := by
  constructor
  · rw [Rules.verify, List.findSome?_eq_none_iff]
    constructor
    · intro h rule hrule f hf
      have h2 := h rule hrule
      rw [List.findSome?_eq_none_iff] at h2
      exact (verify_dep_check_none_iff R rule f).mp (h2 f hf)
    · intro h rule hrule
      rw [List.findSome?_eq_none_iff]
      intro f hf
      exact (verify_dep_check_none_iff R rule f).mpr (h rule hrule f hf)
  · intro rn dn h
    rw [Rules.verify] at h
    rcases List.exists_of_findSome?_eq_some h with ⟨rule, hrule, h2⟩
    rcases List.exists_of_findSome?_eq_some h2 with ⟨f, hf, h3p⟩
    have h3 : (if R.rules.any (fun r => r.name == (f (R.sbuild.setName rule.name)).name)
          || strStartsWith (f (R.sbuild.setName rule.name)).name ("default:") then
        (none : Option (String × String))
      else if f (R.sbuild.setName rule.name) == Step.noop then
        none
      else
        some (rule.name, (f (R.sbuild.setName rule.name)).name)) = some (rn, dn) := h3p
    by_cases h1 : (R.rules.any (fun r => r.name == (f (R.sbuild.setName rule.name)).name)
        || strStartsWith (f (R.sbuild.setName rule.name)).name ("default:")) = true
    · rw [if_pos h1] at h3
      exact absurd h3 (by simp)
    · rw [if_neg h1] at h3
      by_cases hb : (f (R.sbuild.setName rule.name) == Step.noop) = true
      · rw [if_pos hb] at h3
        exact absurd h3 (by simp)
      · rw [if_neg hb] at h3
        have hinj := Option.some.inj h3
        refine ⟨rule, hrule, congrArg Prod.fst hinj, f, hf, congrArg Prod.snd hinj, ?_⟩
        intro hok
        rcases hok with hok | hok | ⟨r, hr, hname⟩
        · exact hb (by simp [hok])
        · exact h1 (Bool.or_eq_true _ _ |>.mpr (Or.inr hok))
        · exact h1 (Bool.or_eq_true _ _ |>.mpr
            (Or.inl (List.any_eq_true.mpr ⟨r, hr, by simpa using hname⟩)))

instance (R : Rules) (rule : Rule) (f : Step → Step) : Decidable (depOk R rule f) := by
  unfold depOk
  infer_instance

def c4Flags : Flags :=
  { host := [], target := [], stage := none, keep_stage := none, cmd := Subcommand.Build [] }

def c4Rules : Rules :=
  { build := { flags := c4Flags, config := { build := "A", host := ["A"], target := ["A"] } }
    rules := [{ name := "a", path := "src/a", kind := Kind.Build,
                deps := [fun _ => Step.noop], default := true, host := false,
                only_host_build := false, only_build := false, after := [] }] }

/-- Witness for claim C4 at a concrete one-rule registry whose only
dependency is the noop sentinel. -/
theorem verify_none_iff_witness : c4Rules.verify = none :=
  (verify_none_iff c4Rules).1.mpr (by decide)

/-! ## Claim C5: rule selection in Rules::plan -/

/-- The selection phase of Rules::plan restated from the specification:
among the rules of the requested kind, with no path filters exactly the
rules with default true at priority 0, with filters exactly the rules
whose path is a suffix of some filter string at the index of the first
matching filter, stably sorted by ascending priority. -/
def selectRulesSpec (R : Rules) (kind : Kind) (paths : List String) : List (Rule × Nat) :=
  (if paths.isEmpty then
    ((R.rules.filter (fun r => r.kind == kind)).filter (fun r => r.default)).map
      (fun r => (r, 0))
  else
    (R.rules.filter (fun r => r.kind == kind)).filterMap (fun r =>
      (paths.findIdx? (fun p => strEndsWith p r.path)).map
        (fun i => (r, i)))).mergeSort (fun a b => a.2 ≤ b.2)

/-- Claim C5: the selection phase of Rules::plan agrees with its
specification restatement, and its output is sorted by ascending
priority. -/
theorem selectRules_eq_spec (R : Rules) (kind : Kind) (paths : List String) :
    R.selectRules kind paths = selectRulesSpec R kind paths ∧
    List.Sorted (fun a b : Rule × Nat => a.2 ≤ b.2) (R.selectRules kind paths) := by
  constructor
  · rw [Rules.selectRules, selectRulesSpec]
    congr 1
    rcases paths with _ | ⟨p, ps⟩
    · rw [if_pos (by decide : (([] : List String).isEmpty) = true),
        ← List.filterMap_eq_map (fun r : Rule => (r, (0 : Nat))),
        List.filterMap_filter, List.filterMap_filter]
      congr 1
      funext a
      by_cases hk : (a.kind == kind) = true
      · have h1 : (a.kind != kind) = false := by simp [bne, hk]
        rw [h1, if_neg (by simp), if_pos hk]
        rfl
      · have h0 : (a.kind == kind) = false := by simpa using hk
        have h1 : (a.kind != kind) = true := by simp [bne, h0]
        rw [h1, if_pos rfl, if_neg (by simp [h0])]
    · rw [if_neg (by simp : ¬ ((((p :: ps)) : List String).isEmpty) = true),
        List.filterMap_filter]
      congr 1
      funext a
      by_cases hk : (a.kind == kind) = true
      · have h1 : (a.kind != kind) = false := by simp [bne, hk]
        rw [h1, if_neg (by simp), if_pos hk]
        rfl
      · have h0 : (a.kind == kind) = false := by simpa using hk
        have h1 : (a.kind != kind) = true := by simp [bne, h0]
        rw [h1, if_pos rfl, if_neg (by simp [h0])]
  · rw [Rules.selectRules]
    have hs := @List.sorted_mergeSort (Rule × Nat)
      (fun a b => a.2 ≤ b.2)
      (fun a b c hab hbc => by
        simp only [decide_eq_true_eq] at *
        omega)
      (fun a b => by
        simp only [Bool.or_eq_true, decide_eq_true_eq]
        omega)
      (R.rules.filterMap (fun rule =>
        if rule.kind != kind then
          none
        else if paths.length == 0 && rule.default then
          some (rule, 0)
        else
          (paths.findIdx? (fun path => strEndsWith path rule.path)).map
            (fun priority => (rule, priority))))
    exact hs.imp (fun h => by simpa using h)

/-! ## Claim C6: host rules with CLI targets but no CLI hosts -/

/-- Claim C6: for a rule with host true, when the CLI host list is empty
and the CLI target list is non-empty, the target axis is the empty list
and the planner emits no steps for the rule. -/
theorem host_rule_no_steps (R : Rules) (rule : Rule)
    (hhost : rule.host = true)
    (hfh : R.build.flags.host = [])
    (hft : R.build.flags.target ≠ []) :
    R.planArr rule = [] ∧ R.planRule rule = [] := by
  have harr : R.planArr rule = [] := by
    rw [Rules.planArr, if_pos hhost, if_neg (by simp [hfh]),
      if_pos (by simpa [List.length_pos] using hft)]
  exact ⟨harr, by simp [Rules.planRule, harr]⟩

def c6Rule : Rule :=
  { name := "h", path := "src/h", kind := Kind.Build, deps := [], default := true,
    host := true, only_host_build := false, only_build := false, after := [] }

def c6Rules : Rules :=
  { build := { flags := { host := [], target := ["C"], stage := none, keep_stage := none,
                          cmd := Subcommand.Build [] }
               config := { build := "A", host := ["A"], target := ["A", "C"] } }
    rules := [c6Rule] }

/-- Witness for claim C6 at a concrete host rule with a CLI target and
no CLI host. -/
theorem host_rule_no_steps_witness : c6Rules.planRule c6Rule = [] :=
  (host_rule_no_steps c6Rules c6Rule rfl rfl (by decide)).2

/-! ## Claim C7: host of steps of only-build rules -/

def c7Rule : Rule :=
  { name := "ob", path := "src/ob", kind := Kind.Build, deps := [], default := true,
    host := false, only_host_build := false, only_build := true, after := [] }

def c7Rules : Rules :=
  { build := { flags := { host := [], target := [], stage := none, keep_stage := none,
                          cmd := Subcommand.Build [] }
               config := { build := "A", host := ["B"], target := ["B"] } }
    rules := [c7Rule] }

/-- Counterexample to claim C7 as stated: with a configured host list
not beginning with the build triple, the planner emits a step of an
only_build rule whose host is not the build triple (the code takes
config.host[..1], not the build triple). -/
theorem only_build_step_host_counterexample :
    c7Rule.only_build = true ∧
    c7Rules.plan = some [{ name := "ob", stage := 2, host := "B", target := "B" }] ∧
    ({ name := "ob", stage := 2, host := "B", target := "B" } : Step).host ≠
      c7Rules.build.config.build := by
  refine ⟨rfl, ?_, by decide⟩
  have hsel : c7Rules.selectRules Kind.Build [] = [(c7Rule, 0)] := by
    show ([(c7Rule, 0)] : List (Rule × Nat)).mergeSort (fun a b => a.2 ≤ b.2) = [(c7Rule, 0)]
    exact List.mergeSort_singleton _
  rw [Rules.plan]
  show some ((c7Rules.selectRules Kind.Build []).flatMap
    (fun rp => c7Rules.planRule rp.1)) = _
  rw [hsel]
  rfl

/-- Claim C7 (amended): provided the configured host list begins with the
build triple, every step the planner emits for a rule with only_build
or only_host_build has the build triple as its host. -/
theorem only_build_step_host (R : Rules) (rule : Rule) (s : Step)
    (hob : rule.only_build = true ∨ rule.only_host_build = true)
    (hhead : R.build.config.host.head? = some R.build.config.build)
    (hs : s ∈ R.planRule rule) :
    s.host = R.build.config.build := by
  have hhosts : R.planHosts rule = [R.build.config.build] := by
    rw [Rules.planHosts, if_pos (by rcases hob with h | h <;> simp [h])]
    cases hcfg : R.build.config.host with
    | nil => rw [hcfg] at hhead; exact absurd hhead (by simp)
    | cons a t =>
      rw [hcfg] at hhead
      simp only [List.head?_cons, Option.some.injEq] at hhead
      simp [hhead]
  rw [Rules.planRule, hhosts] at hs
  simp only [List.flatMap_cons, List.flatMap_nil, List.append_nil, List.mem_map] at hs
  rcases hs with ⟨t, _, rfl⟩
  rfl

def c7wRule : Rule :=
  { name := "ob", path := "src/ob", kind := Kind.Build, deps := [], default := true,
    host := false, only_host_build := false, only_build := true, after := [] }

def c7wRules : Rules :=
  { build := { flags := { host := [], target := [], stage := none, keep_stage := none,
                          cmd := Subcommand.Build [] }
               config := { build := "A", host := ["A", "B"], target := ["A"] } }
    rules := [c7wRule] }

/-- Witness for the amended claim C7 at a concrete registry whose
configured host list begins with the build triple. -/
theorem only_build_step_host_witness :
    ({ name := "ob", stage := 2, host := "A", target := "A" } : Step).host =
      c7wRules.build.config.build :=
  only_build_step_host c7wRules c7wRule _ (Or.inl rfl) rfl (by decide)

/-! ## Claim C9: pseudo-rules, help output and path selection -/

theorem exists_mem_of_findIdx?_eq_some {α : Type} {p : α → Bool} {l : List α} :
    ∀ {s i : Nat}, List.findIdx? p l s = some i → ∃ x ∈ l, p x = true := by
  induction l with
  | nil => intro s i h; simp [List.findIdx?] at h
  | cons a l ih =>
    intro s i h
    rw [List.findIdx?] at h
    by_cases hp : p a = true
    · exact ⟨a, List.mem_cons_self a l, hp⟩
    · rw [if_neg (by simpa using hp)] at h
      rcases ih h with ⟨x, hx, hpx⟩
      exact ⟨x, List.mem_cons_of_mem a hx, hpx⟩

/-- Rules::get_help restated from the specification: for the kind of the
command, exactly the rules whose path does not contain nowhere, sorted
by path, one ./x.py line each after the Available paths header. -/
def getHelpSpec (R : Rules) (command : String) : Option String :=
  (commandKind command).map (fun kind =>
    ((R.rules.filter (fun r => r.kind == kind && !(strContains r.path ("nowhere")))).mergeSort
        (fun a b => a.path ≤ b.path)).foldl
      (fun acc r => acc ++ "    ./x.py " ++ command ++ " " ++ r.path ++ "\n")
      ("Available paths:\n"))

/-- Claim C9 (amended): the help output lists exactly the rules of the
kind of the command whose path does not contain nowhere, sorted by
path, in the stated format; and a rule whose path is the pseudo-rule
sentinel is selected by path filters only when some filter string
itself ends with path/to/nowhere (so it is never selected by a filter
naming a real source path). -/
theorem get_help_spec_and_pseudo_rules :
    (∀ (R : Rules) (command : String), R.get_help command = getHelpSpec R command) ∧
    (∀ (R : Rules) (kind : Kind) (paths : List String) (rule : Rule) (pr : Nat),
      paths ≠ [] → (rule, pr) ∈ R.selectRules kind paths →
      rule.path = "path/to/nowhere" →
      ∃ q ∈ paths, strEndsWith q ("path/to/nowhere") = true) := by
  constructor
  · intro R command
    rw [Rules.get_help, getHelpSpec]
    cases h : commandKind command with
    | none => rfl
    | some kind =>
      simp only [Option.map_some']
      rw [List.filter_filter,
        List.filter_congr (fun (a : Rule) _ => Bool.and_comm
          (!strContains a.path ("nowhere")) (a.kind == kind))]
  · intro R kind paths rule pr hne hmem hpath
    rw [Rules.selectRules, List.mem_mergeSort] at hmem
    rcases List.mem_filterMap.mp hmem with ⟨a, _, hFa⟩
    by_cases hk : (a.kind != kind) = true
    · rw [if_pos hk] at hFa
      exact absurd hFa (by simp)
    · rw [if_neg hk] at hFa
      have hlen : (paths.length == 0 && a.default) = false := by
        rcases paths with _ | ⟨p, ps⟩
        · exact absurd rfl hne
        · rfl
      rw [hlen, if_neg (by simp)] at hFa
      rcases Option.map_eq_some'.mp hFa with ⟨i, hidx, heq⟩
      have ha_rule : a = rule := congrArg Prod.fst heq
      rcases exists_mem_of_findIdx?_eq_some hidx with ⟨q, hq, hqp⟩
      rw [ha_rule, hpath] at hqp
      exact ⟨q, hq, hqp⟩

def c9Rule : Rule :=
  { name := "p", path := "path/to/nowhere", kind := Kind.Build, deps := [], default := false,
    host := false, only_host_build := false, only_build := false, after := [] }

def c9Rules : Rules :=
  { build := { flags := { host := [], target := [], stage := none, keep_stage := none,
                          cmd := Subcommand.Build [] }
               config := { build := "A", host := ["A"], target := ["A"] } }
    rules := [c9Rule] }

/-- Counterexample to claim C9 as stated: a CLI path filter that itself
ends with path/to/nowhere does select the pseudo-rule in the selection
phase of Rules::plan. -/
theorem pseudo_rule_selected_counterexample :
    (c9Rules.selectRules Kind.Build ["path/to/nowhere"]).map (fun rp => (rp.1.name, rp.2)) =
      [("p", 0)] := by
  have hsel : c9Rules.selectRules Kind.Build ["path/to/nowhere"] = [(c9Rule, 0)] := by
    show ([(c9Rule, 0)] : List (Rule × Nat)).mergeSort (fun a b => a.2 ≤ b.2) = [(c9Rule, 0)]
    exact List.mergeSort_singleton _
  rw [hsel]
  rfl

/-- Witness for the amended claim C9 at the concrete pseudo-rule
registry. -/
theorem get_help_spec_and_pseudo_rules_witness :
    c9Rules.get_help ("build") = getHelpSpec c9Rules ("build") ∧
    ∃ q ∈ ["path/to/nowhere"], strEndsWith q ("path/to/nowhere") = true := by
  refine ⟨get_help_spec_and_pseudo_rules.1 c9Rules ("build"), ?_⟩
  have hsel : c9Rules.selectRules Kind.Build ["path/to/nowhere"] = [(c9Rule, 0)] := by
    show ([(c9Rule, 0)] : List (Rule × Nat)).mergeSort (fun a b => a.2 ≤ b.2) = [(c9Rule, 0)]
    exact List.mergeSort_singleton _
  exact get_help_spec_and_pseudo_rules.2 c9Rules Kind.Build ["path/to/nowhere"] c9Rule 0
    (by decide) (hsel ▸ List.mem_singleton.mpr rfl) rfl

/-! ## Claim C2: soft after edges -/

/-- Claim C2: when satisfy_after_deps succeeds, membership in the
resulting edge sets is exactly the old membership plus, for non-noop
nodes, one edge from every node whose name appears in the after list of
the rule of the node; when no node carries an after name the edge set
is unchanged by that name, the noop node and out-of-range entries are
untouched, and no node is ever added. -/
theorem afterExtra_at_none (R : Rules) (nodes : List Step) (i : Nat)
    (h : nodes[i]? = none) : R.afterExtra nodes i = some [] := by
  simp [Rules.afterExtra, h]

theorem afterExtra_at_noop (R : Rules) (nodes : List Step) (i : Nat)
    (h : nodes[i]? = some Step.noop) : R.afterExtra nodes i = some [] := by
  simp [Rules.afterExtra, h]

theorem afterExtra_at_step (R : Rules) (nodes : List Step) (i : Nat) (step : Step)
    (h : nodes[i]? = some step) (hne : step ≠ Step.noop) :
    R.afterExtra nodes i = (R.findRule step.name).map
      (fun rule => rule.after.flatMap (fun a => nameToIdx nodes a)) := by
  simp only [Rules.afterExtra, h]
  rw [if_neg hne]
  cases R.findRule step.name <;> rfl

theorem satisfy_after_deps_spec (R : Rules) (nodes : List Step) (edges edges2 : Nat → List Nat)
    (h : R.satisfyAfterDeps nodes edges = some edges2) :
    (∀ i u, u ∈ edges2 i ↔ (u ∈ edges i ∨
      ∃ step, nodes[i]? = some step ∧ step ≠ Step.noop ∧
        ∃ rule, R.findRule step.name = some rule ∧
          ∃ a ∈ rule.after, u < nodes.length ∧ (nodes.getD u Step.noop).name = a)) ∧
    (∀ i, nodes[i]? = some Step.noop ∨ nodes.length ≤ i → edges2 i = edges i) := by
  rw [Rules.satisfyAfterDeps] at h
  by_cases hall : ((List.range nodes.length).all
      (fun i => (R.afterExtra nodes i).isSome)) = true
  · rw [if_pos hall] at h
    have hedges2 : edges2 = fun i => edges i ++ (R.afterExtra nodes i).getD [] :=
      (Option.some.inj h).symm
    subst hedges2
    constructor
    · intro i u
      simp only [List.mem_append]
      constructor
      · rintro (hu | hu)
        · exact Or.inl hu
        · right
          cases hni : nodes[i]? with
          | none =>
            rw [afterExtra_at_none R nodes i hni] at hu
            simp at hu
          | some step =>
            by_cases hnoop : step = Step.noop
            · rw [afterExtra_at_noop R nodes i (hnoop ▸ hni)] at hu
              simp at hu
            · rw [afterExtra_at_step R nodes i step hni hnoop] at hu
              cases hfr : R.findRule step.name with
              | none =>
                rw [hfr] at hu
                simp at hu
              | some rule =>
                rw [hfr] at hu
                simp only [Option.map_some', Option.getD_some, List.mem_flatMap] at hu
                rcases hu with ⟨a, ha, hmem⟩
                rw [nameToIdx, List.mem_filter, List.mem_range] at hmem
                exact ⟨step, rfl, hnoop, rule, hfr, a, ha, hmem.1, by simpa using hmem.2⟩
      · rintro (hu | ⟨step, hni, hnoop, rule, hfr, a, ha, hult, hname⟩)
        · exact Or.inl hu
        · right
          rw [afterExtra_at_step R nodes i step hni hnoop, hfr]
          simp only [Option.map_some', Option.getD_some, List.mem_flatMap]
          refine ⟨a, ha, ?_⟩
          rw [nameToIdx, List.mem_filter, List.mem_range]
          exact ⟨hult, by simpa using hname⟩
    · intro i hi
      show edges i ++ (R.afterExtra nodes i).getD [] = edges i
      rcases hi with hi | hi
      · rw [afterExtra_at_noop R nodes i hi]
        simp
      · rw [afterExtra_at_none R nodes i (List.getElem?_eq_none hi)]
        simp
  · rw [if_neg hall] at h
    exact absurd h (by simp)

def c2xRule : Rule :=
  { name := "x", path := "src/x", kind := Kind.Build, deps := [], default := true,
    host := false, only_host_build := false, only_build := false, after := ["a"] }

def c2aRule : Rule :=
  { name := "a", path := "src/a", kind := Kind.Build, deps := [], default := true,
    host := false, only_host_build := false, only_build := false, after := [] }

def c2Rules : Rules :=
  { build := { flags := { host := [], target := [], stage := none, keep_stage := none,
                          cmd := Subcommand.Build [] }
               config := { build := "A", host := ["A"], target := ["A"] } }
    rules := [c2aRule, c2xRule] }

def c2nodes : List Step :=
  [Step.noop, { name := "a", stage := 2, host := "A", target := "A" },
   { name := "x", stage := 2, host := "A", target := "A" }]

def c2edges2 : Nat → List Nat :=
  fun i => (fun _ => ([] : List Nat)) i ++ (c2Rules.afterExtra c2nodes i).getD []

/-- Witness for claim C2: in a concrete graph holding nodes named a and
x, where the rule of x lists a in after, the after pass adds the edge
from the a node to the x node. -/
theorem satisfy_after_deps_spec_witness : 1 ∈ c2edges2 2 := by
  have h : c2Rules.satisfyAfterDeps c2nodes (fun _ => []) = some c2edges2 := by
    rw [Rules.satisfyAfterDeps, if_pos (by decide)]
    rfl
  refine ((satisfy_after_deps_spec c2Rules c2nodes (fun _ => []) c2edges2 h).1 2 1).mpr ?_
  refine Or.inr ⟨{ name := "x", stage := 2, host := "A", target := "A" }, rfl, by decide,
    c2xRule, rfl, "a", by decide, by decide, rfl⟩

/-! ## Topological sort: structural helper lemmas -/

theorem topo_visited_mono (edges : Nat → List Nat) :
    ∀ fuel : Nat,
      (∀ (cur : Nat) (st : List Nat × List Nat) (x : Nat),
        x ∈ st.1 → x ∈ (topoVisit edges fuel cur st).1) ∧
      (∀ (ds : List Nat) (st : List Nat × List Nat) (x : Nat),
        x ∈ st.1 → x ∈ (topoList edges fuel ds st).1) := by
  intro fuel
  induction fuel with
  | zero =>
    have hv : ∀ (cur : Nat) (st : List Nat × List Nat) (x : Nat),
        x ∈ st.1 → x ∈ (topoVisit edges 0 cur st).1 := by
      intro cur st x hx
      rw [topoVisit_zero]
      exact hx
    refine ⟨hv, ?_⟩
    intro ds
    induction ds with
    | nil =>
      intro st x hx
      rw [topoList_nil]
      exact hx
    | cons d ds ihd =>
      intro st x hx
      rw [topoList_cons]
      exact ihd _ x (hv d st x hx)
  | succ fuel ih =>
    have hv : ∀ (cur : Nat) (st : List Nat × List Nat) (x : Nat),
        x ∈ st.1 → x ∈ (topoVisit edges (fuel + 1) cur st).1 := by
      intro cur st x hx
      rw [topoVisit_succ]
      by_cases hc : (st.1.contains cur) = true
      · rw [if_pos hc]
        exact hx
      · rw [if_neg hc]
        exact ih.2 (edges cur) (cur :: st.1, st.2) x (List.mem_cons_of_mem _ hx)
    refine ⟨hv, ?_⟩
    intro ds
    induction ds with
    | nil =>
      intro st x hx
      rw [topoList_nil]
      exact hx
    | cons d ds ihd =>
      intro st x hx
      rw [topoList_cons]
      exact ihd _ x (hv d st x hx)

theorem topo_pushes_fresh (edges : Nat → List Nat) :
    ∀ fuel : Nat,
      (∀ (cur : Nat) (st : List Nat × List Nat) (x : Nat),
        x ∈ st.1 → x ∈ (topoVisit edges fuel cur st).2 → x ∈ st.2) ∧
      (∀ (ds : List Nat) (st : List Nat × List Nat) (x : Nat),
        x ∈ st.1 → x ∈ (topoList edges fuel ds st).2 → x ∈ st.2) := by
  intro fuel
  induction fuel with
  | zero =>
    have hv : ∀ (cur : Nat) (st : List Nat × List Nat) (x : Nat),
        x ∈ st.1 → x ∈ (topoVisit edges 0 cur st).2 → x ∈ st.2 := by
      intro cur st x _ hx
      rw [topoVisit_zero] at hx
      exact hx
    refine ⟨hv, ?_⟩
    intro ds
    induction ds with
    | nil =>
      intro st x _ hx
      rw [topoList_nil] at hx
      exact hx
    | cons d ds ihd =>
      intro st x hx1 hx2
      rw [topoList_cons] at hx2
      have hx1' : x ∈ (topoVisit edges 0 d st).1 := (topo_visited_mono edges 0).1 d st x hx1
      exact hv d st x hx1 (ihd _ x hx1' hx2)
  | succ fuel ih =>
    have hv : ∀ (cur : Nat) (st : List Nat × List Nat) (x : Nat),
        x ∈ st.1 → x ∈ (topoVisit edges (fuel + 1) cur st).2 → x ∈ st.2 := by
      intro cur st x hx1 hx2
      rw [topoVisit_succ] at hx2
      by_cases hc : (st.1.contains cur) = true
      · rw [if_pos hc] at hx2
        exact hx2
      · rw [if_neg hc] at hx2
        simp only [List.mem_append, List.mem_singleton] at hx2
        rcases hx2 with hx2 | rfl
        · exact ih.2 (edges cur) (cur :: st.1, st.2) x (List.mem_cons_of_mem _ hx1) hx2
        · exact absurd hx1 (by simpa using hc)
    refine ⟨hv, ?_⟩
    intro ds
    induction ds with
    | nil =>
      intro st x _ hx
      rw [topoList_nil] at hx
      exact hx
    | cons d ds ihd =>
      intro st x hx1 hx2
      rw [topoList_cons] at hx2
      have hx1' : x ∈ (topoVisit edges (fuel + 1) d st).1 :=
        (topo_visited_mono edges (fuel + 1)).1 d st x hx1
      exact hv d st x hx1 (ihd _ x hx1' hx2)

theorem topo_order_nodup (edges : Nat → List Nat) :
    ∀ fuel : Nat,
      (∀ (cur : Nat) (st : List Nat × List Nat),
        st.2.Nodup → (∀ x ∈ st.2, x ∈ st.1) →
        (topoVisit edges fuel cur st).2.Nodup ∧
          (∀ x ∈ (topoVisit edges fuel cur st).2, x ∈ (topoVisit edges fuel cur st).1)) ∧
      (∀ (ds : List Nat) (st : List Nat × List Nat),
        st.2.Nodup → (∀ x ∈ st.2, x ∈ st.1) →
        (topoList edges fuel ds st).2.Nodup ∧
          (∀ x ∈ (topoList edges fuel ds st).2, x ∈ (topoList edges fuel ds st).1)) := by
  intro fuel
  induction fuel with
  | zero =>
    have hv : ∀ (cur : Nat) (st : List Nat × List Nat),
        st.2.Nodup → (∀ x ∈ st.2, x ∈ st.1) →
        (topoVisit edges 0 cur st).2.Nodup ∧
          (∀ x ∈ (topoVisit edges 0 cur st).2, x ∈ (topoVisit edges 0 cur st).1) := by
      intro cur st h1 h2
      rw [topoVisit_zero]
      exact ⟨h1, h2⟩
    refine ⟨hv, ?_⟩
    intro ds
    induction ds with
    | nil =>
      intro st h1 h2
      rw [topoList_nil]
      exact ⟨h1, h2⟩
    | cons d ds ihd =>
      intro st h1 h2
      rw [topoList_cons]
      exact ihd _ (hv d st h1 h2).1 (hv d st h1 h2).2
  | succ fuel ih =>
    have hv : ∀ (cur : Nat) (st : List Nat × List Nat),
        st.2.Nodup → (∀ x ∈ st.2, x ∈ st.1) →
        (topoVisit edges (fuel + 1) cur st).2.Nodup ∧
          (∀ x ∈ (topoVisit edges (fuel + 1) cur st).2, x ∈ (topoVisit edges (fuel + 1) cur st).1) := by
      intro cur st h1 h2
      rw [topoVisit_succ]
      by_cases hc : (st.1.contains cur) = true
      · rw [if_pos hc]
        exact ⟨h1, h2⟩
      · rw [if_neg hc]
        have hcur : cur ∉ st.1 := by simpa using hc
        have hst1 := ih.2 (edges cur) (cur :: st.1, st.2) h1
          (fun x hx => List.mem_cons_of_mem _ (h2 x hx))
        have hfresh : cur ∉ (topoList edges fuel (edges cur) (cur :: st.1, st.2)).2 := by
          intro hmem
          have := (topo_pushes_fresh edges fuel).2 (edges cur) (cur :: st.1, st.2) cur
            (List.mem_cons_self _ _) hmem
          exact hcur (h2 cur this)
        constructor
        · rw [List.nodup_append]
          exact ⟨hst1.1, List.nodup_singleton _, by
            intro a ha hb
            rw [List.mem_singleton] at hb
            subst hb
            exact hfresh ha⟩
        · intro x hx
          simp only [List.mem_append, List.mem_singleton] at hx
          rcases hx with hx | hx
          · exact hst1.2 x hx
          · rw [hx]
            exact (topo_visited_mono edges fuel).2 (edges cur) (cur :: st.1, st.2) cur
              (List.mem_cons_self _ _)
    refine ⟨hv, ?_⟩
    intro ds
    induction ds with
    | nil =>
      intro st h1 h2
      rw [topoList_nil]
      exact ⟨h1, h2⟩
    | cons d ds ihd =>
      intro st h1 h2
      rw [topoList_cons]
      exact ihd _ (hv d st h1 h2).1 (hv d st h1 h2).2

theorem topo_elements_lt (edges : Nat → List Nat) (n : Nat)
    (hb : ∀ j u, u ∈ edges j → u < n) :
    ∀ fuel : Nat,
      (∀ (cur : Nat) (st : List Nat × List Nat) (x : Nat), cur < n →
        x ∈ (topoVisit edges fuel cur st).2 → x ∈ st.2 ∨ x < n) ∧
      (∀ (ds : List Nat) (st : List Nat × List Nat) (x : Nat), (∀ d ∈ ds, d < n) →
        x ∈ (topoList edges fuel ds st).2 → x ∈ st.2 ∨ x < n) := by
  intro fuel
  induction fuel with
  | zero =>
    have hv : ∀ (cur : Nat) (st : List Nat × List Nat) (x : Nat), cur < n →
        x ∈ (topoVisit edges 0 cur st).2 → x ∈ st.2 ∨ x < n := by
      intro cur st x _ hx
      rw [topoVisit_zero] at hx
      exact Or.inl hx
    refine ⟨hv, ?_⟩
    intro ds
    induction ds with
    | nil =>
      intro st x _ hx
      rw [topoList_nil] at hx
      exact Or.inl hx
    | cons d ds ihd =>
      intro st x hds hx
      rw [topoList_cons] at hx
      rcases ihd _ x (fun d' hd' => hds d' (List.mem_cons_of_mem _ hd')) hx with hx' | hx'
      · exact hv d st x (hds d (List.mem_cons_self _ _)) hx'
      · exact Or.inr hx'
  | succ fuel ih =>
    have hv : ∀ (cur : Nat) (st : List Nat × List Nat) (x : Nat), cur < n →
        x ∈ (topoVisit edges (fuel + 1) cur st).2 → x ∈ st.2 ∨ x < n := by
      intro cur st x hc hx
      rw [topoVisit_succ] at hx
      by_cases hvis : (st.1.contains cur) = true
      · rw [if_pos hvis] at hx
        exact Or.inl hx
      · rw [if_neg hvis] at hx
        simp only [List.mem_append, List.mem_singleton] at hx
        rcases hx with hx | rfl
        · exact ih.2 (edges cur) (cur :: st.1, st.2) x (fun d hd => hb cur d hd) hx
        · exact Or.inr hc
    refine ⟨hv, ?_⟩
    intro ds
    induction ds with
    | nil =>
      intro st x _ hx
      rw [topoList_nil] at hx
      exact Or.inl hx
    | cons d ds ihd =>
      intro st x hds hx
      rw [topoList_cons] at hx
      rcases ihd _ x (fun d' hd' => hds d' (List.mem_cons_of_mem _ hd')) hx with hx' | hx'
      · exact hv d st x (hds d (List.mem_cons_self _ _)) hx'
      · exact Or.inr hx'

/-! ## Topological sort: fuel accounting -/

/-- The number of graph indices below n not yet visited; bounds the
remaining recursion depth of the Rust topo_sort. -/
def unvisitedCount (n : Nat) (visited : List Nat) : Nat :=
  ((List.range n).filter (fun i => !(visited.contains i))).length

theorem length_filter_mono {α : Type} (p q : α → Bool) (l : List α)
    (h : ∀ a ∈ l, p a = true → q a = true) :
    (l.filter p).length ≤ (l.filter q).length := by
  induction l with
  | nil => simp
  | cons a l ih =>
    have ih' := ih (fun a ha => h a (List.mem_cons_of_mem _ ha))
    rw [List.filter_cons, List.filter_cons]
    by_cases hp : p a = true
    · rw [if_pos hp, if_pos (h a (List.mem_cons_self _ _) hp)]
      simpa using ih'
    · rw [if_neg hp]
      by_cases hq : q a = true
      · rw [if_pos hq]
        exact le_trans ih' (by simp)
      · rw [if_neg hq]
        exact ih'

theorem unvisited_anti (n : Nat) (v v' : List Nat) (h : ∀ x ∈ v, x ∈ v') :
    unvisitedCount n v' ≤ unvisitedCount n v := by
  apply length_filter_mono
  intro a _ ha
  have ha' : a ∉ v' := by simpa using ha
  have hnv : a ∉ v := fun hm => ha' (h a hm)
  simpa using hnv

theorem unvisited_le (n : Nat) (v : List Nat) : unvisitedCount n v ≤ n := by
  calc ((List.range n).filter (fun i => !(v.contains i))).length
      ≤ (List.range n).length := (List.filter_sublist _).length_le
    _ = n := List.length_range n

theorem unvisited_insert_lt (n : Nat) (v : List Nat) (cur : Nat)
    (hn : cur < n) (hv : cur ∉ v) :
    unvisitedCount n (cur :: v) < unvisitedCount n v := by
  have hmem : cur ∈ List.range n := List.mem_range.mpr hn
  rw [unvisitedCount, unvisitedCount]
  generalize List.range n = l at hmem
  induction l with
  | nil => exact absurd hmem (List.not_mem_nil _)
  | cons a l ih =>
    rw [List.filter_cons, List.filter_cons]
    by_cases hac : a = cur
    · subst hac
      rw [if_neg (by simp), if_pos (by simpa using hv)]
      have hle : (l.filter (fun i => !((a :: v).contains i))).length ≤
          (l.filter (fun i => !(v.contains i))).length := by
        apply length_filter_mono
        intro b _ hb
        have hb' : b ∉ (a :: v) := by simpa using hb
        have hnv : b ∉ v := fun hm => hb' (List.mem_cons_of_mem _ hm)
        simpa using hnv
      simpa using Nat.lt_succ_of_le hle
    · have hmem' : cur ∈ l := by
        rcases List.mem_cons.mp hmem with h | h
        · exact absurd h.symm hac
        · exact h
      have hsame : (!((cur :: v).contains a)) = (!(v.contains a)) := by
        simp only [List.elem_eq_mem, List.mem_cons]
        by_cases hav : a ∈ v
        · simp [hav]
        · simp [hav, hac]
      rw [hsame]
      by_cases hkeep : (!(v.contains a)) = true
      · rw [if_pos hkeep, if_pos hkeep]
        simpa using ih hmem'
      · rw [if_neg hkeep, if_neg hkeep]
        exact ih hmem'

theorem topo_fuel_stable (edges : Nat → List Nat) (n : Nat)
    (hb : ∀ j u, u ∈ edges j → u < n) :
    ∀ k : Nat,
      (∀ (cur : Nat) (st : List Nat × List Nat) (f₁ f₂ : Nat),
        unvisitedCount n st.1 ≤ k → cur < n →
        unvisitedCount n st.1 < f₁ → unvisitedCount n st.1 < f₂ →
        topoVisit edges f₁ cur st = topoVisit edges f₂ cur st) ∧
      (∀ (ds : List Nat) (st : List Nat × List Nat) (f₁ f₂ : Nat),
        unvisitedCount n st.1 ≤ k → (∀ d ∈ ds, d < n) →
        unvisitedCount n st.1 < f₁ → unvisitedCount n st.1 < f₂ →
        topoList edges f₁ ds st = topoList edges f₂ ds st) := by
  intro k
  induction k using Nat.strong_induction_on with
  | _ k ih =>
    have hv : ∀ (cur : Nat) (st : List Nat × List Nat) (f₁ f₂ : Nat),
        unvisitedCount n st.1 ≤ k → cur < n →
        unvisitedCount n st.1 < f₁ → unvisitedCount n st.1 < f₂ →
        topoVisit edges f₁ cur st = topoVisit edges f₂ cur st := by
      intro cur st f₁ f₂ hk hc h1 h2
      rcases f₁ with _ | a
      · omega
      rcases f₂ with _ | b
      · omega
      rw [topoVisit_succ, topoVisit_succ]
      by_cases hvis : (st.1.contains cur) = true
      · rw [if_pos hvis, if_pos hvis]
      · rw [if_neg hvis, if_neg hvis]
        have hcur : cur ∉ st.1 := by simpa using hvis
        have hdec : unvisitedCount n (cur :: st.1) < unvisitedCount n st.1 :=
          unvisited_insert_lt n st.1 cur hc hcur
        have hlist := (ih (unvisitedCount n (cur :: st.1)) (by omega)).2
          (edges cur) (cur :: st.1, st.2) a b (le_refl _) (fun d hd => hb cur d hd)
          (show unvisitedCount n (cur :: st.1) < a by omega)
          (show unvisitedCount n (cur :: st.1) < b by omega)
        rw [hlist]
    refine ⟨hv, ?_⟩
    intro ds
    induction ds with
    | nil =>
      intro st f₁ f₂ _ _ _ _
      rw [topoList_nil, topoList_nil]
    | cons d ds ihd =>
      intro st f₁ f₂ hk hds h1 h2
      rw [topoList_cons, topoList_cons]
      rw [hv d st f₁ f₂ hk (hds d (List.mem_cons_self _ _)) h1 h2]
      have hmono : ∀ x ∈ st.1, x ∈ (topoVisit edges f₂ d st).1 :=
        (topo_visited_mono edges f₂).1 d st
      have hanti : unvisitedCount n (topoVisit edges f₂ d st).1 ≤ unvisitedCount n st.1 :=
        unvisited_anti n st.1 _ hmono
      exact ihd (topoVisit edges f₂ d st) f₁ f₂ (le_trans hanti hk)
        (fun d' hd' => hds d' (List.mem_cons_of_mem _ hd')) (by omega) (by omega)

/-! ## Topological sort: the precedence invariant -/

/-- u appears at a strictly earlier position than v in the list l. -/
def Before (l : List Nat) (u v : Nat) : Prop :=
  ∃ i j : Nat, i < j ∧ l[i]? = some u ∧ l[j]? = some v

theorem Before.append_right {l : List Nat} {u v : Nat} (t : List Nat) (h : Before l u v) :
    Before (l ++ t) u v := by
  rcases h with ⟨i, j, hij, hi, hj⟩
  rcases List.getElem?_eq_some.mp hj with ⟨hjl, _⟩
  refine ⟨i, j, hij, ?_, ?_⟩
  · rw [List.getElem?_append_left (lt_trans hij hjl)]
    exact hi
  · rw [List.getElem?_append_left hjl]
    exact hj

theorem before_append_last {l : List Nat} {u : Nat} (c : Nat) (h : u ∈ l) :
    Before (l ++ [c]) u c := by
  rcases List.mem_iff_getElem.mp h with ⟨i, hil, hiu⟩
  refine ⟨i, l.length, hil, ?_, List.getElem?_concat_length l c⟩
  rw [List.getElem?_append_left hil]
  exact List.getElem?_eq_some.mpr ⟨hil, hiu⟩

/-- Relation between the state at entry and at exit of a fully fuelled
topo_sort call: visited grows, the order grows at the end, stays
nodup and inside visited, every newly visited index is pushed, pushed
indices were unvisited at entry, and the pushed prefix property holds:
every dependency of a pushed index is in the initial gray set G0 or
appears earlier in the order. -/
structure TopoRes (edges : Nat → List Nat) (G0 : List Nat)
    (st st' : List Nat × List Nat) : Prop where
  mono : ∀ x ∈ st.1, x ∈ st'.1
  grows : ∃ t, st'.2 = st.2 ++ t
  nodup : st'.2.Nodup
  ordSub : ∀ x ∈ st'.2, x ∈ st'.1
  noGray : ∀ x ∈ st'.1, x ∈ st.1 ∨ x ∈ st'.2
  fresh : ∀ x ∈ st'.2, x ∈ st.2 ∨ x ∉ st.1
  inv : ∀ v ∈ st'.2, ∀ u ∈ edges v, u ∈ G0 ∨ Before st'.2 u v

theorem topoRes_self (edges : Nat → List Nat) (G0 : List Nat) (st : List Nat × List Nat)
    (h1 : st.2.Nodup) (h2 : ∀ x ∈ st.2, x ∈ st.1)
    (hinv : ∀ v ∈ st.2, ∀ u ∈ edges v, u ∈ G0 ∨ Before st.2 u v) :
    TopoRes edges G0 st st :=
  ⟨fun _ hx => hx, ⟨[], (List.append_nil _).symm⟩, h1, h2,
    fun _ hx => Or.inl hx, fun _ hx => Or.inl hx, hinv⟩

theorem topoRes_trans {edges : Nat → List Nat} {G0 : List Nat}
    {st st1 st2 : List Nat × List Nat}
    (a : TopoRes edges G0 st st1) (b : TopoRes edges G0 st1 st2) :
    TopoRes edges G0 st st2 := by
  refine ⟨fun x hx => b.mono x (a.mono x hx), ?_, b.nodup, b.ordSub, ?_, ?_, b.inv⟩
  · rcases a.grows with ⟨t1, ht1⟩
    rcases b.grows with ⟨t2, ht2⟩
    exact ⟨t1 ++ t2, by rw [ht2, ht1, List.append_assoc]⟩
  · intro x hx
    rcases b.noGray x hx with hx1 | hx1
    · rcases a.noGray x hx1 with hx2 | hx2
      · exact Or.inl hx2
      · rcases b.grows with ⟨t2, ht2⟩
        exact Or.inr (ht2 ▸ List.mem_append_left _ hx2)
    · exact Or.inr hx1
  · intro x hx
    rcases b.fresh x hx with hx1 | hx1
    · exact a.fresh x hx1
    · exact Or.inr (fun hmem => hx1 (a.mono x hmem))

theorem topo_master (edges : Nat → List Nat) (n : Nat) (rank : Nat → Nat) (G0 : List Nat)
    (hb : ∀ j u, u ∈ edges j → u < n)
    (hacyc : ∀ a b, a ∈ edges b → rank a < rank b) :
    ∀ fuel : Nat,
      (∀ (cur : Nat) (st : List Nat × List Nat),
        unvisitedCount n st.1 < fuel → cur < n →
        st.2.Nodup → (∀ x ∈ st.2, x ∈ st.1) →
        (∀ x ∈ st.1, x ∉ G0 → x ∉ st.2 → rank cur < rank x) →
        (∀ v ∈ st.2, ∀ u ∈ edges v, u ∈ G0 ∨ Before st.2 u v) →
        TopoRes edges G0 st (topoVisit edges fuel cur st) ∧
          cur ∈ (topoVisit edges fuel cur st).1) ∧
      (∀ (ds : List Nat) (st : List Nat × List Nat),
        unvisitedCount n st.1 < fuel → (∀ d ∈ ds, d < n) →
        st.2.Nodup → (∀ x ∈ st.2, x ∈ st.1) →
        (∀ d ∈ ds, ∀ x ∈ st.1, x ∉ G0 → x ∉ st.2 → rank d < rank x) →
        (∀ v ∈ st.2, ∀ u ∈ edges v, u ∈ G0 ∨ Before st.2 u v) →
        TopoRes edges G0 st (topoList edges fuel ds st) ∧
          (∀ d ∈ ds, d ∈ (topoList edges fuel ds st).1)) := by
  intro fuel
  induction fuel with
  | zero =>
    constructor
    · intro cur st hfuel
      exact absurd hfuel (Nat.not_lt_zero _)
    · intro ds st hfuel
      exact absurd hfuel (Nat.not_lt_zero _)
  | succ fuel ih =>
    have hv : ∀ (cur : Nat) (st : List Nat × List Nat),
        unvisitedCount n st.1 < fuel + 1 → cur < n →
        st.2.Nodup → (∀ x ∈ st.2, x ∈ st.1) →
        (∀ x ∈ st.1, x ∉ G0 → x ∉ st.2 → rank cur < rank x) →
        (∀ v ∈ st.2, ∀ u ∈ edges v, u ∈ G0 ∨ Before st.2 u v) →
        TopoRes edges G0 st (topoVisit edges (fuel + 1) cur st) ∧
          cur ∈ (topoVisit edges (fuel + 1) cur st).1 := by
      intro cur st hfuel hc h1 h2 hgray hinv
      rw [topoVisit_succ]
      by_cases hvis : (st.1.contains cur) = true
      · rw [if_pos hvis]
        exact ⟨topoRes_self edges G0 st h1 h2 hinv, by simpa using hvis⟩
      · rw [if_neg hvis]
        have hcur : cur ∉ st.1 := by simpa using hvis
        have hdec := unvisited_insert_lt n st.1 cur hc hcur
        obtain ⟨hres1, hdall⟩ := ih.2 (edges cur) (cur :: st.1, st.2)
          (show unvisitedCount n (cur :: st.1) < fuel by omega)
          (fun d hd => hb cur d hd)
          h1 (fun x hx => List.mem_cons_of_mem _ (h2 x hx))
          (by
            intro d hd x hx hxg hxo
            have hrk : rank d < rank cur := hacyc d cur hd
            rcases List.mem_cons.mp hx with hx | hx
            · rw [hx]
              exact hrk
            · exact lt_trans hrk (hgray x hx hxg hxo))
          hinv
        set stq := topoList edges fuel (edges cur) (cur :: st.1, st.2) with hstq
        show TopoRes edges G0 st (stq.1, stq.2 ++ [cur]) ∧ cur ∈ (stq.1, stq.2 ++ [cur]).1
        have hcurin : cur ∈ stq.1 := hres1.mono cur (List.mem_cons_self _ _)
        have hfreshcur : cur ∉ stq.2 := by
          intro hmem
          rcases hres1.fresh cur hmem with hmem1 | hmem1
          · exact hcur (h2 cur hmem1)
          · exact hmem1 (List.mem_cons_self _ _)
        have hgrows : ∃ t, stq.2 = st.2 ++ t := hres1.grows
        refine ⟨⟨?_, ?_, ?_, ?_, ?_, ?_, ?_⟩, hcurin⟩
        · intro x hx
          exact hres1.mono x (List.mem_cons_of_mem _ hx)
        · rcases hgrows with ⟨t, ht⟩
          exact ⟨t ++ [cur], by rw [ht, List.append_assoc]⟩
        · rw [List.nodup_append]
          refine ⟨hres1.nodup, List.nodup_singleton _, ?_⟩
          intro a ha hamem
          rw [List.mem_singleton] at hamem
          subst hamem
          exact hfreshcur ha
        · intro x hx
          rcases List.mem_append.mp hx with hx | hx
          · exact hres1.ordSub x hx
          · rw [List.mem_singleton] at hx
            rw [hx]
            exact hcurin
        · intro x hx
          rcases hres1.noGray x hx with hx1 | hx1
          · rcases List.mem_cons.mp hx1 with hx2 | hx2
            · rw [hx2]
              exact Or.inr (List.mem_append_right _ (List.mem_singleton_self _))
            · exact Or.inl hx2
          · exact Or.inr (List.mem_append_left _ hx1)
        · intro x hx
          rcases List.mem_append.mp hx with hx | hx
          · rcases hres1.fresh x hx with hx1 | hx1
            · exact Or.inl hx1
            · exact Or.inr (fun hmem => hx1 (List.mem_cons_of_mem _ hmem))
          · rw [List.mem_singleton] at hx
            rw [hx]
            exact Or.inr hcur
        · intro v hvmem u hu
          rcases List.mem_append.mp hvmem with hvmem | hvmem
          · rcases hres1.inv v hvmem u hu with h | h
            · exact Or.inl h
            · exact Or.inr (Before.append_right [cur] h)
          · rw [List.mem_singleton] at hvmem
            subst hvmem
            have huin : u ∈ stq.1 := hdall u hu
            rcases hres1.noGray u huin with hu1 | hu1
            · rcases List.mem_cons.mp hu1 with hu2 | hu2
              · exfalso
                have := hacyc u v hu
                rw [hu2] at this
                exact lt_irrefl _ this
              · by_cases hug : u ∈ G0
                · exact Or.inl hug
                · by_cases huo : u ∈ st.2
                  · rcases hgrows with ⟨t, ht⟩
                    refine Or.inr (before_append_last v ?_)
                    rw [ht]
                    exact List.mem_append_left _ huo
                  · exfalso
                    have h3 := hgray u hu2 hug huo
                    have h4 := hacyc u v hu
                    exact lt_irrefl _ (lt_trans h3 h4)
            · exact Or.inr (before_append_last v hu1)
    refine ⟨hv, ?_⟩
    intro ds
    induction ds with
    | nil =>
      intro st hfuel _ h1 h2 _ hinv
      rw [topoList_nil]
      exact ⟨topoRes_self edges G0 st h1 h2 hinv, by simp⟩
    | cons d ds ihd =>
      intro st hfuel hds h1 h2 hgray hinv
      rw [topoList_cons]
      obtain ⟨hres, hdin⟩ := hv d st hfuel (hds d (List.mem_cons_self _ _)) h1 h2
        (hgray d (List.mem_cons_self _ _)) hinv
      have hanti : unvisitedCount n (topoVisit edges (fuel + 1) d st).1 ≤
          unvisitedCount n st.1 :=
        unvisited_anti n st.1 _ (hres.mono)
      obtain ⟨hres2, hdall2⟩ := ihd (topoVisit edges (fuel + 1) d st)
        (by omega)
        (fun d' hd' => hds d' (List.mem_cons_of_mem _ hd'))
        hres.nodup hres.ordSub
        (by
          intro d' hd' x hx hxg hxo
          rcases hres.noGray x hx with hx1 | hx1
          · have hxo' : x ∉ st.2 := by
              intro hmem
              rcases hres.grows with ⟨t, ht⟩
              exact hxo (ht ▸ List.mem_append_left _ hmem)
            exact hgray d' (List.mem_cons_of_mem _ hd') x hx1 hxg hxo'
          · exact absurd hx1 hxo)
        hres.inv
      refine ⟨topoRes_trans hres hres2, ?_⟩
      intro d' hd'
      rcases List.mem_cons.mp hd' with hd2 | hd2
      · rw [hd2]
        exact hres2.mono d hdin
      · exact hdall2 d' hd2

/-! ## Topological sort: driver properties -/

theorem topoFold_basic (edges : Nat → List Nat) (fuel : Nat) :
    ∀ (l : List Nat) (st : List Nat × List Nat),
      st.2.Nodup → (∀ x ∈ st.2, x ∈ st.1) →
      ((l.foldl (fun s idx => topoVisit edges fuel idx s) st).2.Nodup ∧
       (∀ x ∈ st.1, x ∈ (l.foldl (fun s idx => topoVisit edges fuel idx s) st).1) ∧
       (∀ x ∈ (l.foldl (fun s idx => topoVisit edges fuel idx s) st).2,
          x ∈ (l.foldl (fun s idx => topoVisit edges fuel idx s) st).1) ∧
       (∀ x ∈ st.1, x ∈ (l.foldl (fun s idx => topoVisit edges fuel idx s) st).2 → x ∈ st.2)) := by
  intro l
  induction l with
  | nil =>
    intro st h1 h2
    exact ⟨h1, fun x hx => hx, h2, fun x _ hx => hx⟩
  | cons i l ih =>
    intro st h1 h2
    rw [List.foldl_cons]
    have hstep := (topo_order_nodup edges fuel).1 i st h1 h2
    obtain ⟨ih1, ih2, ih3, ih4⟩ := ih (topoVisit edges fuel i st) hstep.1 hstep.2
    refine ⟨ih1, ?_, ih3, ?_⟩
    · intro x hx
      exact ih2 x ((topo_visited_mono edges fuel).1 i st x hx)
    · intro x hx hx2
      have hx' : x ∈ (topoVisit edges fuel i st).1 :=
        (topo_visited_mono edges fuel).1 i st x hx
      exact (topo_pushes_fresh edges fuel).1 i st x hx (ih4 x hx' hx2)

theorem topoDriver_nodup (n : Nat) (edges : Nat → List Nat) : (topoDriver n edges).Nodup :=
  (topoFold_basic edges (n + 1) (List.range n) ([0], []) List.nodup_nil (by simp)).1

theorem topoDriver_zero_not_mem (n : Nat) (edges : Nat → List Nat) :
    0 ∉ topoDriver n edges := by
  intro hmem
  have h := (topoFold_basic edges (n + 1) (List.range n) ([0], []) List.nodup_nil (by simp)).2.2.2
  have : (0 : Nat) ∈ (([0], []) : List Nat × List Nat).2 :=
    h 0 (List.mem_singleton_self 0) hmem
  simp at this

theorem topoFold_elements (edges : Nat → List Nat) (n : Nat) (fuel : Nat)
    (hb : ∀ j u, u ∈ edges j → u < n) :
    ∀ (l : List Nat) (st : List Nat × List Nat), (∀ i ∈ l, i < n) →
      ∀ x ∈ (l.foldl (fun s idx => topoVisit edges fuel idx s) st).2, x ∈ st.2 ∨ x < n := by
  intro l
  induction l with
  | nil =>
    intro st _ x hx
    exact Or.inl hx
  | cons i l ih =>
    intro st hl x hx
    rw [List.foldl_cons] at hx
    rcases ih (topoVisit edges fuel i st) (fun j hj => hl j (List.mem_cons_of_mem _ hj)) x hx
      with hx1 | hx1
    · exact (topo_elements_lt edges n hb fuel).1 i st x (hl i (List.mem_cons_self _ _)) hx1
    · exact Or.inr hx1

theorem topoDriver_elements_lt (n : Nat) (edges : Nat → List Nat)
    (hb : ∀ j u, u ∈ edges j → u < n) :
    ∀ x ∈ topoDriver n edges, x < n := by
  intro x hx
  rcases topoFold_elements edges n (n + 1) hb (List.range n) ([0], [])
    (fun i hi => List.mem_range.mp hi) x hx with hx1 | hx1
  · simp at hx1
  · exact hx1

theorem topoFold_inv (edges : Nat → List Nat) (n : Nat) (rank : Nat → Nat)
    (hb : ∀ j u, u ∈ edges j → u < n)
    (hacyc : ∀ a b, a ∈ edges b → rank a < rank b) :
    ∀ (l : List Nat) (st : List Nat × List Nat),
      (∀ i ∈ l, i < n) →
      st.2.Nodup → (∀ x ∈ st.2, x ∈ st.1) →
      (∀ x ∈ st.1, x ∈ ([0] : List Nat) ∨ x ∈ st.2) →
      (∀ v ∈ st.2, ∀ u ∈ edges v, u ∈ ([0] : List Nat) ∨ Before st.2 u v) →
      ((∀ v ∈ (l.foldl (fun s idx => topoVisit edges (n + 1) idx s) st).2, ∀ u ∈ edges v,
          u ∈ ([0] : List Nat) ∨
            Before (l.foldl (fun s idx => topoVisit edges (n + 1) idx s) st).2 u v) ∧
        (∀ x ∈ (l.foldl (fun s idx => topoVisit edges (n + 1) idx s) st).1,
          x ∈ ([0] : List Nat) ∨ x ∈ (l.foldl (fun s idx => topoVisit edges (n + 1) idx s) st).2) ∧
        (∀ i ∈ l, i ∈ (l.foldl (fun s idx => topoVisit edges (n + 1) idx s) st).1) ∧
        (∀ x ∈ st.1, x ∈ (l.foldl (fun s idx => topoVisit edges (n + 1) idx s) st).1)) := by
  intro l
  induction l with
  | nil =>
    intro st _ _ _ hng hinv
    exact ⟨hinv, hng, by simp, fun x hx => hx⟩
  | cons i l ih =>
    intro st hl h1 h2 hng hinv
    rw [List.foldl_cons]
    obtain ⟨hres, hiin⟩ := (topo_master edges n rank ([0] : List Nat) hb hacyc (n + 1)).1 i st
      (by have := unvisited_le n st.1; omega)
      (hl i (List.mem_cons_self _ _)) h1 h2
      (by
        intro x hx hxg hxo
        rcases hng x hx with h | h
        · exact absurd h hxg
        · exact absurd h hxo)
      hinv
    have hng1 : ∀ x ∈ (topoVisit edges (n + 1) i st).1,
        x ∈ ([0] : List Nat) ∨ x ∈ (topoVisit edges (n + 1) i st).2 := by
      intro x hx
      rcases hres.noGray x hx with hx1 | hx1
      · rcases hng x hx1 with h | h
        · exact Or.inl h
        · rcases hres.grows with ⟨t, ht⟩
          exact Or.inr (ht ▸ List.mem_append_left _ h)
      · exact Or.inr hx1
    obtain ⟨ih1, ih2, ih3, ih4⟩ := ih (topoVisit edges (n + 1) i st)
      (fun j hj => hl j (List.mem_cons_of_mem _ hj))
      hres.nodup hres.ordSub hng1 hres.inv
    refine ⟨ih1, ih2, ?_, fun x hx => ih4 x (hres.mono x hx)⟩
    intro j hj
    rcases List.mem_cons.mp hj with hj1 | hj1
    · rw [hj1]
      exact ih4 i hiin
    · exact ih3 j hj1

theorem topoDriver_respects_edges (n : Nat) (edges : Nat → List Nat) (rank : Nat → Nat)
    (hb : ∀ j u, u ∈ edges j → u < n)
    (hacyc : ∀ a b, a ∈ edges b → rank a < rank b)
    (hz : edges 0 = []) :
    ∀ v, v < n → ∀ u ∈ edges v, u ≠ 0 → Before (topoDriver n edges) u v := by
  intro v hvn u hu hune
  obtain ⟨hinv, hng, hall, _⟩ := topoFold_inv edges n rank hb hacyc (List.range n) ([0], [])
    (fun i hi => List.mem_range.mp hi) List.nodup_nil (by simp) (by simp) (by simp)
  have hvne : v ≠ 0 := by
    intro hv0
    rw [hv0, hz] at hu
    exact absurd hu (List.not_mem_nil u)
  have hvin := hall v (List.mem_range.mpr hvn)
  rcases hng v hvin with hv1 | hv1
  · exact absurd (List.mem_singleton.mp hv1) hvne
  · rcases hinv v hv1 u hu with h | h
    · exact absurd (List.mem_singleton.mp h) hune
    · exact h

theorem topoFold_fuel_stable (edges : Nat → List Nat) (n : Nat)
    (hb : ∀ j u, u ∈ edges j → u < n) :
    ∀ (l : List Nat) (st : List Nat × List Nat) (f₁ f₂ : Nat), (∀ i ∈ l, i < n) →
      unvisitedCount n st.1 < f₁ → unvisitedCount n st.1 < f₂ →
      l.foldl (fun s idx => topoVisit edges f₁ idx s) st =
        l.foldl (fun s idx => topoVisit edges f₂ idx s) st := by
  intro l
  induction l with
  | nil =>
    intro st f₁ f₂ _ _ _
    rw [List.foldl_nil, List.foldl_nil]
  | cons i l ih =>
    intro st f₁ f₂ hl h1 h2
    rw [List.foldl_cons, List.foldl_cons]
    rw [(topo_fuel_stable edges n hb (unvisitedCount n st.1)).1 i st f₁ f₂ (le_refl _)
      (hl i (List.mem_cons_self _ _)) h1 h2]
    have hanti : unvisitedCount n (topoVisit edges f₂ i st).1 ≤ unvisitedCount n st.1 :=
      unvisited_anti n st.1 _ ((topo_visited_mono edges f₂).1 i st)
    exact ih (topoVisit edges f₂ i st) f₁ f₂ (fun j hj => hl j (List.mem_cons_of_mem _ hj))
      (by omega) (by omega)

/-! ## Well-formedness of the expansion graph -/

/-- Well-formedness of the graph state threaded through build_graph: the
node list is duplicate free and starts with the noop sentinel, the noop
node has no edge entry, every edge target is a node index, and indices
beyond the node list have empty edge entries. -/
def GWF (g : Graph) : Prop :=
  g.nodes.Nodup ∧ g.nodes[0]? = some Step.noop ∧
  g.edges 0 = [] ∧
  (∀ j u, u ∈ g.edges j → u < g.nodes.length) ∧
  (∀ j, g.nodes.length ≤ j → g.edges j = [])

theorem buildGraph_wf (R : Rules) :
    ∀ fuel : Nat,
      (∀ (step : Step) (g : Graph) (i : Nat) (g' : Graph),
        R.buildGraph fuel step g = some (i, g') → GWF g →
        GWF g' ∧ g.nodes <+: g'.nodes ∧ i < g'.nodes.length) ∧
      (∀ (ds : List Step) (g : Graph) (acc : List Nat) (l : List Nat) (g' : Graph),
        R.buildList fuel ds g acc = some (l, g') → GWF g →
        (∀ x ∈ acc, x < g.nodes.length) →
        GWF g' ∧ g.nodes <+: g'.nodes ∧ (∀ x ∈ l, x < g'.nodes.length)) := by
  intro fuel
  induction fuel with
  | zero =>
    constructor
    · intro step g i g' h
      rw [buildGraph_zero] at h
      exact absurd h (by simp)
    · intro ds g acc l g' h hg hacc
      cases ds with
      | nil =>
        rw [buildList_nil] at h
        obtain ⟨rfl, rfl⟩ : acc = l ∧ g = g' := by
          have := Option.some.inj h
          exact ⟨congrArg Prod.fst this, congrArg Prod.snd this⟩
        exact ⟨hg, List.prefix_refl _, hacc⟩
      | cons d ds =>
        rw [buildList_cons, buildGraph_zero] at h
        simp at h
  | succ fuel ih =>
    have hv : ∀ (step : Step) (g : Graph) (i : Nat) (g' : Graph),
        R.buildGraph (fuel + 1) step g = some (i, g') → GWF g →
        GWF g' ∧ g.nodes <+: g'.nodes ∧ i < g'.nodes.length := by
      intro step g i g' h hg
      rw [buildGraph_succ] at h
      cases hidx : g.nodes.findIdx? (fun s => s == step) with
      | some k =>
        rw [hidx] at h
        simp only [] at h
        obtain ⟨hk, hgg⟩ : k = i ∧ g = g' := by
          have := Option.some.inj h
          exact ⟨congrArg Prod.fst this, congrArg Prod.snd this⟩
        subst hk
        subst hgg
        refine ⟨hg, List.prefix_refl _, ?_⟩
        exact (List.findIdx?_eq_some_iff_findIdx_eq.mp hidx).1
      | none =>
        rw [hidx] at h
        simp only [] at h
        cases hfr : R.findRule step.name with
        | none =>
          rw [hfr] at h
          simp at h
        | some rule =>
          rw [hfr] at h
          simp only [] at h
          cases hds : R.depSteps step rule with
          | none =>
            rw [hds] at h
            simp at h
          | some ds =>
            rw [hds] at h
            simp only [Option.map_eq_some'] at h
            rcases h with ⟨⟨l, g2⟩, hbl, heq⟩
            have hstep_not : step ∉ g.nodes := by
              intro hmem
              rw [List.findIdx?_eq_none_iff] at hidx
              have := hidx step hmem
              simp at this
            have hg1 : GWF ({ nodes := g.nodes ++ [step], edges := g.edges } : Graph) := by
              obtain ⟨hnd, hh, hz, hbd, hor⟩ := hg
              refine ⟨?_, ?_, hz, ?_, ?_⟩
              · rw [List.nodup_append]
                exact ⟨hnd, List.nodup_singleton _, by
                  intro a ha hb
                  rw [List.mem_singleton] at hb
                  subst hb
                  exact hstep_not ha⟩
              · rw [List.getElem?_append_left]
                · exact hh
                · rcases List.getElem?_eq_some.mp hh with ⟨hlt, _⟩
                  exact hlt
              · intro j u hu
                calc u < g.nodes.length := hbd j u hu
                  _ ≤ (g.nodes ++ [step]).length := by simp
              · intro j hj
                apply hor
                simp only [List.length_append, List.length_singleton] at hj
                omega
            obtain ⟨hg2, hpre2, hl2⟩ := ih.2 ds _ [] l g2 hbl hg1 (by simp)
            have hlen1 : g.nodes.length < g2.nodes.length := by
              have := hpre2.length_le
              simp only [List.length_append, List.length_singleton] at this
              omega
            have hgoal : GWF g' ∧ (g.nodes ++ [step]) <+: g'.nodes ∧ i < g'.nodes.length := by
              obtain ⟨hi, hgg⟩ : g.nodes.length = i ∧
                  ({ nodes := g2.nodes,
                     edges := fun j => if j = g.nodes.length then g2.edges j ++ l
                       else g2.edges j } : Graph) = g' :=
                ⟨congrArg Prod.fst heq, congrArg Prod.snd heq⟩
              subst hi
              subst hgg
              obtain ⟨hnd2, hh2, hz2, hbd2, hor2⟩ := hg2
              have hpos : 0 < g.nodes.length := by
                rcases List.getElem?_eq_some.mp hg.2.1 with ⟨hlt, _⟩
                omega
              refine ⟨⟨hnd2, hh2, ?_, ?_, ?_⟩, hpre2, hlen1⟩
              · show (if (0 : Nat) = g.nodes.length then g2.edges 0 ++ l else g2.edges 0) = []
                rw [if_neg (by omega)]
                exact hz2
              · intro j u hu
                have hu' : u ∈ (if j = g.nodes.length then g2.edges j ++ l else g2.edges j) := hu
                by_cases hj : j = g.nodes.length
                · rw [if_pos hj] at hu'
                  rcases List.mem_append.mp hu' with hu2 | hu2
                  · exact hbd2 j u hu2
                  · exact hl2 u hu2
                · rw [if_neg hj] at hu'
                  exact hbd2 j u hu'
              · intro j hj
                have hj' : g2.nodes.length ≤ j := hj
                show (if j = g.nodes.length then g2.edges j ++ l else g2.edges j) = []
                rw [if_neg (by omega)]
                exact hor2 j hj'
            exact ⟨hgoal.1, (List.prefix_append _ _).trans hgoal.2.1, hgoal.2.2⟩
    refine ⟨hv, ?_⟩
    intro ds
    induction ds with
    | nil =>
      intro g acc l g' h hg hacc
      rw [buildList_nil] at h
      obtain ⟨rfl, rfl⟩ : acc = l ∧ g = g' := by
        have := Option.some.inj h
        exact ⟨congrArg Prod.fst this, congrArg Prod.snd this⟩
      exact ⟨hg, List.prefix_refl _, hacc⟩
    | cons d ds ihd =>
      intro g acc l g' h hg hacc
      rw [buildList_cons] at h
      cases hbg : R.buildGraph (fuel + 1) d g with
      | none =>
        rw [hbg] at h
        simp at h
      | some p =>
        obtain ⟨i1, g2⟩ := p
        rw [hbg] at h
        simp only [] at h
        obtain ⟨hgw, hpre, hilt⟩ := hv d g i1 g2 hbg hg
        obtain ⟨hgw2, hpre2, hl2⟩ := ihd g2 (acc ++ [i1]) l g' h hgw
          (by
            intro x hx
            rcases List.mem_append.mp hx with hx | hx
            · exact lt_of_lt_of_le (hacc x hx) hpre.length_le
            · rw [List.mem_singleton] at hx
              rw [hx]
              exact hilt)
        exact ⟨hgw2, hpre.trans hpre2, hl2⟩

theorem GWF_init : GWF ({ nodes := [Step.noop], edges := fun _ => [] } : Graph) := by
  refine ⟨List.nodup_singleton _, rfl, rfl, ?_, ?_⟩
  · intro j u hu
    simp at hu
  · intro j _
    rfl

theorem expandGraph_fold_wf (R : Rules) (fuel : Nat) :
    ∀ (steps : List Step) (g0 g : Graph),
      steps.foldlM (fun g s => (R.buildGraph fuel s g).map (fun p => p.2)) g0 = some g →
      GWF g0 → GWF g ∧ g0.nodes <+: g.nodes := by
  intro steps
  induction steps with
  | nil =>
    intro g0 g h hg
    rw [List.foldlM_nil] at h
    obtain rfl := Option.some.inj h
    exact ⟨hg, List.prefix_refl _⟩
  | cons s ss ih =>
    intro g0 g h hg
    rw [List.foldlM_cons] at h
    cases hbg : R.buildGraph fuel s g0 with
    | none =>
      rw [hbg] at h
      simp at h
    | some p =>
      rw [hbg] at h
      simp only [Option.map_some', Option.some_bind] at h
      obtain ⟨hgw, hpre, _⟩ := (buildGraph_wf R fuel).1 s g0 p.1 p.2 (by rw [hbg]) hg
      obtain ⟨hgw2, hpre2⟩ := ih p.2 g h hgw
      exact ⟨hgw2, hpre.trans hpre2⟩

theorem Rules.expandGraph_wf (R : Rules) (fuel : Nat) (steps : List Step) (g : Graph)
    (h : R.expandGraph fuel steps = some g) : GWF g := by
  rw [Rules.expandGraph] at h
  exact (expandGraph_fold_wf R fuel steps _ g h GWF_init).1

theorem afterExtra_elements (R : Rules) (nodes : List Step) (i : Nat) (ext : List Nat)
    (h : R.afterExtra nodes i = some ext) : ∀ u ∈ ext, u < nodes.length := by
  cases hni : nodes[i]? with
  | none =>
    rw [afterExtra_at_none R nodes i hni] at h
    obtain rfl := Option.some.inj h
    intro u hu
    exact absurd hu (List.not_mem_nil u)
  | some step =>
    by_cases hnoop : step = Step.noop
    · rw [afterExtra_at_noop R nodes i (hnoop ▸ hni)] at h
      obtain rfl := Option.some.inj h
      intro u hu
      exact absurd hu (List.not_mem_nil u)
    · rw [afterExtra_at_step R nodes i step hni hnoop] at h
      cases hfr : R.findRule step.name with
      | none =>
        rw [hfr] at h
        simp at h
      | some rule =>
        rw [hfr] at h
        simp only [Option.map_some'] at h
        obtain rfl := Option.some.inj h
        intro u hu
        rw [List.mem_flatMap] at hu
        rcases hu with ⟨a, _, hu⟩
        rw [nameToIdx, List.mem_filter, List.mem_range] at hu
        exact hu.1

theorem satisfyAfterDeps_wf (R : Rules) (nodes : List Step) (edges edges2 : Nat → List Nat)
    (h : R.satisfyAfterDeps nodes edges = some edges2) :
    (∀ j u, u ∈ edges2 j → u ∈ edges j ∨ u < nodes.length) ∧
    (nodes[0]? = some Step.noop → edges2 0 = edges 0) ∧
    (∀ j, nodes.length ≤ j → edges2 j = edges j) := by
  rw [Rules.satisfyAfterDeps] at h
  by_cases hall : ((List.range nodes.length).all
      (fun i => (R.afterExtra nodes i).isSome)) = true
  · rw [if_pos hall] at h
    have he : edges2 = fun i => edges i ++ (R.afterExtra nodes i).getD [] :=
      (Option.some.inj h).symm
    subst he
    refine ⟨?_, ?_, ?_⟩
    · intro j u hu
      rcases List.mem_append.mp hu with hu | hu
      · exact Or.inl hu
      · right
        cases hext : R.afterExtra nodes j with
        | none =>
          rw [hext] at hu
          simp at hu
        | some ext =>
          rw [hext] at hu
          simp only [Option.getD_some] at hu
          exact afterExtra_elements R nodes j ext hext u hu
    · intro hh
      show edges 0 ++ (R.afterExtra nodes 0).getD [] = edges 0
      rw [afterExtra_at_noop R nodes 0 hh]
      simp
    · intro j hj
      show edges j ++ (R.afterExtra nodes j).getD [] = edges j
      rw [afterExtra_at_none R nodes j (List.getElem?_eq_none hj)]
      simp
  · rw [if_neg hall] at h
    exact absurd h (by simp)

/-- The edge list of node i of an optional graph (empty when the
expansion failed); exposes the edge sets of concrete expansions. -/
def graphEdgesAt (og : Option Graph) (i : Nat) : List Nat :=
  match og with
  | none => []
  | some g => g.edges i

/-! ## Claim C1: the topological order places prerequisites first -/

/-- Claim C1 (amended): for a graph whose edge targets are node indices,
whose noop node 0 has an empty edge entry, and which is acyclic
(witnessed by a rank function increasing along edges), the order
produced by the topo_sort driver places every prerequisite u of a node
v strictly before v, provided u is not the noop node 0 (which is
pre-marked visited and never appears in the output); every graph
produced by Rules::expand satisfies these hypotheses, and the expand
output is the image of the driver order under the node list, so the
positions transfer to steps. -/
theorem topo_order_places_deps_first :
    (∀ (n : Nat) (edges2 : Nat → List Nat) (rank : Nat → Nat) (u v : Nat),
      (∀ j w, w ∈ edges2 j → w < n) →
      (∀ a b, a ∈ edges2 b → rank a < rank b) →
      edges2 0 = [] →
      u ∈ edges2 v → v < n → u ≠ 0 →
      Before (topoDriver n edges2) u v) ∧
    (∀ (R : Rules) (fuel : Nat) (steps : List Step) (g : Graph) (edges2 : Nat → List Nat),
      R.expandGraph fuel steps = some g →
      R.satisfyAfterDeps g.nodes g.edges = some edges2 →
      R.expand fuel steps =
        some ((topoDriver g.nodes.length edges2).map (fun i => g.nodes.getD i Step.noop)) ∧
      (∀ j w, w ∈ edges2 j → w < g.nodes.length) ∧
      edges2 0 = [] ∧
      (∀ j w, w ∈ edges2 j → j < g.nodes.length) ∧
      (∀ i j : Nat, ∀ u' v' : Nat,
        (topoDriver g.nodes.length edges2)[i]? = some u' →
        (topoDriver g.nodes.length edges2)[j]? = some v' →
        ((topoDriver g.nodes.length edges2).map (fun k => g.nodes.getD k Step.noop))[i]? =
          some (g.nodes.getD u' Step.noop) ∧
        ((topoDriver g.nodes.length edges2).map (fun k => g.nodes.getD k Step.noop))[j]? =
          some (g.nodes.getD v' Step.noop))) := by
  constructor
  · intro n edges2 rank u v hb hacyc hz hu hv hune
    exact topoDriver_respects_edges n edges2 rank hb hacyc hz v hv u hu hune
  · intro R fuel steps g edges2 hg he
    obtain ⟨hnd, hh, hz0, hbd, hor⟩ := R.expandGraph_wf fuel steps g hg
    obtain ⟨hw1, hw2, hw3⟩ := satisfyAfterDeps_wf R g.nodes g.edges edges2 he
    have hb2 : ∀ j w, w ∈ edges2 j → w < g.nodes.length := by
      intro j w hw
      rcases hw1 j w hw with h | h
      · exact hbd j w h
      · exact h
    have hz2 : edges2 0 = [] := by
      rw [hw2 hh, hz0]
    have hjlt : ∀ j w, w ∈ edges2 j → j < g.nodes.length := by
      intro j w hw
      by_contra hjge
      push_neg at hjge
      rw [hw3 j hjge, hor j hjge] at hw
      exact absurd hw (List.not_mem_nil w)
    refine ⟨?_, hb2, hz2, hjlt, ?_⟩
    · rw [Rules.expand, hg]
      simp only []
      rw [he]
    · intro i j u' v' hi hj
      constructor
      · rw [List.getElem?_map, hi]
        rfl
      · rw [List.getElem?_map, hj]
        rfl

def c1wEdges : Nat → List Nat := fun j => if j = 1 then [2] else []

def c1wRank : Nat → Nat := fun j => if j = 1 then 1 else 0

/-- Witness for the amended claim C1 on a concrete acyclic graph: node 1
depends on node 2, and the driver order places 2 before 1. -/
theorem topo_order_places_deps_first_witness : Before (topoDriver 3 c1wEdges) 2 1 := by
  refine topo_order_places_deps_first.1 3 c1wEdges c1wRank 2 1 ?_ ?_ rfl (by decide)
    (by decide) (by decide)
  · intro j w hw
    by_cases hj : j = 1
    · rw [hj] at hw
      simp [c1wEdges] at hw
      omega
    · simp [c1wEdges, hj] at hw
  · intro a b hab
    by_cases hb1 : b = 1
    · subst hb1
      simp [c1wEdges] at hab
      subst hab
      decide
    · simp [c1wEdges, hb1] at hab

def c1xRule : Rule :=
  { name := "a", path := "src/a", kind := Kind.Build, deps := [fun _ => Step.noop],
    default := true, host := false, only_host_build := false, only_build := false, after := [] }

def c1xR : Rules :=
  { build := { flags := { host := [], target := [], stage := none, keep_stage := none,
                          cmd := Subcommand.Build [] }
               config := { build := "A", host := ["A"], target := ["A"] } }
    rules := [c1xRule] }

def c1xstep : Step := { name := "a", stage := 2, host := "A", target := "A" }

/-- Counterexample to claim C1 as stated: the expanded graph has the
edge 0 -> 1 (node 1 depends on the noop node 0, because a dependency
function returned the noop sentinel), yet the noop step never appears
in the output order, so the prerequisite node 0 does not appear
strictly before its dependent. -/
theorem topo_order_counterexample :
    graphEdgesAt (c1xR.expandGraph 10 [c1xstep]) 1 = [0] ∧
    c1xR.expand 10 [c1xstep] = some [c1xstep] ∧
    Step.noop ∉ [c1xstep] :=
  ⟨rfl, rfl, by decide⟩

/-! ## Claim C10: termination, uniqueness, and the noop node -/

/-- Claim C10: the depth-first topo_sort needs recursion depth at most
the number of unvisited nodes, so on every finite edge map — cycles
included — any fuel beyond n plus one produces the very same result as
the canonical driver (the Rust recursion terminates); each node index
is appended to the order at most once; node 0 is pre-marked visited and
never appears in the order; and consequently the noop step never
appears in the expand output and is never executed by the runner. -/
theorem topo_sort_terminates_and_noop_skipped :
    (∀ (n : Nat) (edges : Nat → List Nat) (extra : Nat), (∀ j u, u ∈ edges j → u < n) →
      ((List.range n).foldl (fun st idx => topoVisit edges (n + 1 + extra) idx st) ([0], [])).2
        = topoDriver n edges) ∧
    (∀ (n : Nat) (edges : Nat → List Nat), (topoDriver n edges).Nodup) ∧
    (∀ (n : Nat) (edges : Nat → List Nat), 0 ∉ topoDriver n edges) ∧
    (∀ (R : Rules) (fuel : Nat) (steps out : List Step),
      R.expand fuel steps = some out →
      Step.noop ∉ out ∧ Step.noop ∉ R.runExecuted out) := by
  refine ⟨?_, topoDriver_nodup, topoDriver_zero_not_mem, ?_⟩
  · intro n edges extra hb
    rw [topoDriver]
    have h := topoFold_fuel_stable edges n hb (List.range n) ([0], []) (n + 1 + extra) (n + 1)
      (fun i hi => List.mem_range.mp hi)
      (show unvisitedCount n [0] < n + 1 + extra by have := unvisited_le n [0]; omega)
      (show unvisitedCount n [0] < n + 1 by have := unvisited_le n [0]; omega)
    exact congrArg Prod.snd h
  · intro R fuel steps out h
    rw [Rules.expand] at h
    cases hg : R.expandGraph fuel steps with
    | none =>
      rw [hg] at h
      simp at h
    | some g =>
      rw [hg] at h
      simp only [] at h
      cases he : R.satisfyAfterDeps g.nodes g.edges with
      | none =>
        rw [he] at h
        simp at h
      | some edges2 =>
        rw [he] at h
        simp only [] at h
        obtain rfl := (Option.some.inj h).symm
        obtain ⟨hnd, hh, hz0, hbd, hor⟩ := R.expandGraph_wf fuel steps g hg
        obtain ⟨hw1, _, _⟩ := satisfyAfterDeps_wf R g.nodes g.edges edges2 he
        have hb2 : ∀ j w, w ∈ edges2 j → w < g.nodes.length := by
          intro j w hw
          rcases hw1 j w hw with hcase | hcase
          · exact hbd j w hcase
          · exact hcase
        have hnoop_not : Step.noop ∉
            (topoDriver g.nodes.length edges2).map (fun i => g.nodes.getD i Step.noop) := by
          intro hmem
          rw [List.mem_map] at hmem
          rcases hmem with ⟨i, hi, hieq⟩
          have hilt : i < g.nodes.length := topoDriver_elements_lt _ _ hb2 i hi
          have hine : i ≠ 0 := fun h0 => topoDriver_zero_not_mem _ _ (h0 ▸ hi)
          rcases List.getElem?_eq_some.mp hh with ⟨h0lt, h0eq⟩
          rw [List.getD_eq_getElem g.nodes Step.noop hilt] at hieq
          have : g.nodes[i] = g.nodes[0] := by rw [hieq, h0eq]
          exact hine ((List.Nodup.getElem_inj_iff hnd).mp this)
        refine ⟨hnoop_not, ?_⟩
        intro hmem
        exact hnoop_not (List.mem_of_mem_filter hmem)

def c10Edges : Nat → List Nat := fun _ => []

def c10Rule : Rule :=
  { name := "a", path := "src/a", kind := Kind.Build, deps := [], default := true,
    host := false, only_host_build := false, only_build := false, after := [] }

def c10R : Rules :=
  { build := { flags := { host := [], target := [], stage := none, keep_stage := none,
                          cmd := Subcommand.Build [] }
               config := { build := "A", host := ["A"], target := ["A"] } }
    rules := [c10Rule] }

def c10step : Step := { name := "a", stage := 2, host := "A", target := "A" }

/-- Witness for claim C10 at a concrete edgeless graph and a concrete
one-rule expansion. -/
theorem topo_sort_terminates_and_noop_skipped_witness :
    ((List.range 2).foldl (fun st idx => topoVisit c10Edges (2 + 1 + 5) idx st) ([0], [])).2
      = topoDriver 2 c10Edges ∧ Step.noop ∉ [c10step] :=
  ⟨topo_sort_terminates_and_noop_skipped.1 2 c10Edges 5
      (fun _ u hu => absurd hu (List.not_mem_nil u)),
   (topo_sort_terminates_and_noop_skipped.2.2.2 c10R 10 [c10step] [c10step] rfl).1⟩

/-! ## Claim C8: the noop edge and the never-emitted node 0 -/

def c8wf : Step → Step := fun _ => Step.noop

def c8wRule : Rule :=
  { name := "a", path := "src/a", kind := Kind.Build, deps := [c8wf], default := true,
    host := false, only_host_build := false, only_build := false, after := [] }

def c8wR : Rules :=
  { build := { flags := { host := [], target := [], stage := none, keep_stage := none,
                          cmd := Subcommand.Build [] }
               config := { build := "A", host := ["A"], target := ["A"] } }
    rules := [c8wRule] }

def c8wstep : Step := { name := "a", stage := 2, host := "A", target := "A" }

/-- Counterexample to claim C8 as stated: the code pushes the index of a
noop dependency unconditionally, so node 0 does appear in the edge set
of node 1 after hard-edge expansion of a rule whose dependency
function returns the noop sentinel. -/
theorem noop_edge_counterexample :
    0 ∈ graphEdgesAt (c8wR.expandGraph 10 [c8wstep]) 1 := by decide

/-- Claim C8 (amended): when a dependency function returns a step whose
name does not begin with default:, the expander adds its node index as
an edge unconditionally — in particular index 0 when the returned step
is the noop sentinel already present as node 0 — so node 0 can appear
in edge sets; but node 0 is never emitted by the topological sort
driver, which pre-marks it visited. -/
theorem noop_dep_adds_edge_zero :
    (∀ (R : Rules) (rule : Rule) (f : Step → Step) (s : Step) (fuel : Nat),
      s ≠ Step.noop → R.findRule s.name = some rule → rule.deps = [f] → f s = Step.noop →
      graphEdgesAt (R.expandGraph (fuel + 2) [s]) 1 = [0]) ∧
    (∀ (n : Nat) (edges : Nat → List Nat), 0 ∉ topoDriver n edges) := by
  refine ⟨?_, topoDriver_zero_not_mem⟩
  intro R rule f s fuel hs hr hdeps hf
  have hbeq : (Step.noop == s) = false := beq_eq_false_iff_ne.mpr (Ne.symm hs)
  have hidx1 : ([Step.noop] : List Step).findIdx? (fun x => x == s) = none := by
    simp [List.findIdx?, hbeq]
  have htgt : R.depTargets s f = some [Step.noop] := by
    rw [Rules.depTargets, hf]
    rfl
  have hds : R.depSteps s rule = some [Step.noop] := by
    rw [Rules.depSteps, hdeps]
    simp [List.foldrM, htgt]
  have hidx2 : ([Step.noop, s] : List Step).findIdx? (fun x => x == Step.noop) = some 0 := by
    simp [List.findIdx?]
  rw [Rules.expandGraph, List.foldlM_cons]
  rw [show fuel + 2 = (fuel + 1) + 1 from rfl, buildGraph_succ]
  simp only [hidx1, hr, hds, List.singleton_append, buildList_cons, buildGraph_succ, hidx2,
    buildList_nil, Option.map_some', Option.some_bind, List.foldlM_nil, graphEdgesAt]
  simp

/-- Witness for the amended claim C8: the general noop-edge statement at
a concrete one-rule registry, through the theorem itself. -/
theorem noop_dep_adds_edge_zero_witness :
    graphEdgesAt (c8wR.expandGraph 10 [c8wstep]) 1 = [0] ∧ 0 ∉ topoDriver 2 c10Edges := by
  constructor
  · exact noop_dep_adds_edge_zero.1 c8wR c8wRule c8wf c8wstep 8 (by decide) rfl rfl rfl
  · exact noop_dep_adds_edge_zero.2 2 c10Edges

/-! ## Claim C3: default fan-out -/

/-- Claim C3 (amended): when a dependency function returns a step d
whose name begins with default: and whose kind string parses (only doc
and dist do; any other kind string panics, see the counterexample), the
expander enumerates as dependency steps exactly d.name(r.name) for the
registered rules r of that kind with default true, keeping a rule with
host true only when d.target is one of the configured host tags. -/
theorem default_reference_fanout (R : Rules) (step : Step) (f : Step → Step) (kind : Kind)
    (hpre : strStartsWith (f step).name ("default:") = true)
    (hk : parseDefaultKind (strDrop (f step).name 8) = some kind) :
    R.depTargets step f = some (R.fanOut (f step) kind) ∧
    (∀ s : Step, s ∈ R.fanOut (f step) kind ↔
      ∃ r ∈ R.rules, r.default = true ∧ r.kind = kind ∧
        (r.host = true → (f step).target ∈ R.build.config.host) ∧
        s = (f step).setName r.name) := by
  constructor
  · rw [Rules.depTargets]
    simp only [hpre, if_true, hk, Option.map_some']
  · intro s
    rw [Rules.fanOut]
    simp only [List.mem_map, List.mem_filter]
    constructor
    · rintro ⟨r, ⟨⟨hr, hdef⟩, hcond⟩, hname⟩
      rw [Bool.and_eq_true] at hcond
      refine ⟨r, hr, hdef, by simpa using hcond.1, ?_, hname.symm⟩
      intro hhost
      rcases Bool.or_eq_true _ _ |>.mp hcond.2 with hcase | hcase
      · rw [hhost] at hcase
        simp at hcase
      · rcases List.any_eq_true.mp hcase with ⟨hx, hxmem, hxeq⟩
        rw [beq_iff_eq] at hxeq
        rw [← hxeq]
        exact hxmem
    · rintro ⟨r, hr, hdef, hkind, hhost, hname⟩
      refine ⟨r, ⟨⟨hr, hdef⟩, ?_⟩, hname.symm⟩
      rw [Bool.and_eq_true]
      refine ⟨by simpa using hkind, ?_⟩
      by_cases hrh : r.host = true
      · refine Bool.or_eq_true _ _ |>.mpr (Or.inr ?_)
        refine List.any_eq_true.mpr ⟨(f step).target, hhost hrh, ?_⟩
        simp
      · refine Bool.or_eq_true _ _ |>.mpr (Or.inl ?_)
        simp [hrh]

def c3xbRule : Rule :=
  { name := "b", path := "src/b", kind := Kind.Build,
    deps := [fun s => s.setName ("default:test")], default := true,
    host := false, only_host_build := false, only_build := false, after := [] }

def c3xtRule : Rule :=
  { name := "t", path := "src/t", kind := Kind.Test, deps := [], default := true,
    host := false, only_host_build := false, only_build := false, after := [] }

def c3xR : Rules :=
  { build := { flags := { host := [], target := [], stage := none, keep_stage := none,
                          cmd := Subcommand.Build [] }
               config := { build := "A", host := ["A"], target := ["A"] } }
    rules := [c3xbRule, c3xtRule] }

def c3xstep : Step := { name := "b", stage := 2, host := "A", target := "A" }

/-- Counterexample to claim C3 as stated: a dependency on default:test
does not fan out over the registered default test rules — expansion
panics on the unknown kind string (only doc and dist are accepted) —
even though a default rule of kind Test exists, whose fan-out step the
claim predicts. -/
theorem default_reference_fanout_counterexample :
    c3xR.expand 10 [c3xstep] = none ∧
    c3xR.fanOut (c3xstep.setName ("default:test")) Kind.Test =
      [c3xstep.setName ("t")] := by
  constructor
  · decide
  · decide

def c3wf : Step → Step := fun s => s.setName ("default:doc")

def c3wdRule : Rule :=
  { name := "d", path := "src/d", kind := Kind.Doc, deps := [], default := true,
    host := false, only_host_build := false, only_build := false, after := [] }

def c3wR : Rules :=
  { build := { flags := { host := [], target := [], stage := none, keep_stage := none,
                          cmd := Subcommand.Build [] }
               config := { build := "A", host := ["A"], target := ["A"] } }
    rules := [c3wdRule] }

def c3wstep : Step := { name := "c", stage := 2, host := "A", target := "A" }

/-- Witness for the amended claim C3 at a concrete default:doc
dependency over a one-rule doc registry. -/
theorem default_reference_fanout_witness :
    c3wR.depTargets c3wstep c3wf = some (c3wR.fanOut (c3wf c3wstep) Kind.Doc) ∧
    (c3wf c3wstep).setName ("d") ∈ c3wR.fanOut (c3wf c3wstep) Kind.Doc := by
  have h := default_reference_fanout c3wR c3wstep c3wf Kind.Doc (by decide) (by decide)
  refine ⟨h.1, ?_⟩
  exact (h.2 ((c3wf c3wstep).setName ("d"))).mpr
    ⟨c3wdRule, List.mem_singleton_self _, rfl, rfl, fun _ => by decide, rfl⟩
